import Mathlib

/-!
# discord-image-uploader: upload queue and upload history

A shallow embedding of `internal/history/history.go` and
`internal/uploader/uploader.go` (with `Watcher.DeleteFile`,
`Watcher.isImageFile` and `Watcher.ScanExistingFiles` from
`internal/watcher/watcher.go`), followed by theorems about them.

Modelling conventions

* One goroutine runs at a time: every function below is the body of the Go
  function of the same name, with the state passed explicitly as a `World`.
* The two mutexes, `History.mutex` and `Uploader.queueMutex`, are passed as a
  `Locks` value: the state of both at the call.  Every function of the source
  releases what it acquires, so the state on return is the state at the call
  and is not returned.  A `Lock` or `RLock` that cannot be granted is never
  granted later, since no other goroutine runs: the call does not return, which
  is the outcome `Run.blocked w`, with `w` the state in which the goroutine
  hangs.
* The operating system is part of the state: `World.fs` gives, for each path,
  what `os.Stat` returns, what `calculateFileHash` returns and whether
  `os.Remove` succeeds.  Distinct path strings are distinct files.
* The Discord client is a collaborator: `deliver c` is the outcome (`true` for
  a `nil` error) of the call `c` during one tick.
* `World.trace` is a ghost log of the calls the uploader makes to its
  collaborators, oldest first; `World.saves` is a ghost counter of the calls of
  `History.save`.  No decision of the code depends on either.
* Go slices are lists.  In `uploadBatch` the slices `batch` and `u.queue`
  share one backing array; `append(batch, u.queue...)` copies the remainder
  onto the cells it already occupies, so the aliasing is not observable and
  the result is the list `batch ++ queue`.
* Go maps are association lists; the iteration order of a Go map is
  unspecified and nothing below depends on it.  The map of the history can be
  nil, which is what `json.Unmarshal` leaves for the content `null`:
  `World.nilMap` says so.  Reads of a nil map find nothing; an assignment to
  it panics, and since no function of the source recovers, the call does not
  return, which is the outcome `Run.panics w`.
* Of the Go library, `filepath.Ext` is written out as on Unix; the rune mapping
  of `strings.ToLower` and the decoder `json.Unmarshal` are parameters; and
  `filepath.Walk` is given by the list of calls it makes to its callback.
* The namespace `Seq` holds, for each function that takes a lock, the state
  transformer it computes when no lock operation blocks and nothing panics;
  the lemmas relate the two and the claims are stated on the functions with
  their locks.
-/

namespace ImageUploader

/-! ## Data model -/

/-- The type `UploadRecord` of `history.go`; `UploadedAt` is a clock reading. -/
structure UploadRecord where
  FilePath : String
  FileHash : String
  FileSize : Int
  UploadedAt : Nat
  DiscordURL : String
deriving DecidableEq, Repr

/-- The map `History.records`, from path to record. -/
abbrev Records := List (String × UploadRecord)

/-- Go `m[k]` with the comma-ok form: the record stored under `k`, if any. -/
def mapGet (m : Records) (k : String) : Option UploadRecord :=
  match m with
  | [] => none
  | e :: rest => if e.1 = k then some e.2 else mapGet rest k

/-- Go `delete(m, k)`. -/
def mapDelete (m : Records) (k : String) : Records :=
  match m with
  | [] => []
  | e :: rest => if e.1 = k then mapDelete rest k else e :: mapDelete rest k

/-- Go `m[k] = v`: any earlier entry for `k` is replaced. -/
def mapSet (m : Records) (k : String) (v : UploadRecord) : Records :=
  mapDelete m k ++ [(k, v)]

/-- Result of `os.Stat`: a `FileInfo` with its `Size()`, an error for which
`os.IsNotExist` holds, or any other error. -/
inductive StatResult where
  | ok (size : Int)
  | notExist
  | otherErr
deriving DecidableEq, Repr

/-- What the operating system answers for one path. -/
structure FileState where
  /-- Result of `os.Stat`. -/
  stat : StatResult
  /-- Result of `calculateFileHash` (open, read, SHA-256, hex); `none` is an error. -/
  hash : Option String
  /-- Whether `os.Remove` succeeds. -/
  removable : Bool
deriving DecidableEq, Repr

/-- The file system: the state of every path. -/
abbrev FileSys := String → FileState

/-- State of a path after a successful `os.Remove`. -/
def FileState.gone : FileState :=
  { stat := StatResult.notExist, hash := none, removable := false }

/-- A call on the Discord client. -/
inductive Call where
  | UploadImage (filePath : String)
  | UploadImages (filePaths : List String)
deriving DecidableEq, Repr

/-- The paths a delivery call carries, in order. -/
def Call.paths : Call → List String
  | Call.UploadImage filePath => [filePath]
  | Call.UploadImages filePaths => filePaths

/-- A call of the uploader to one of its collaborators. -/
inductive Event where
  | deliver (c : Call)
  | MarkUploaded (filePath : String) (discordURL : String)
  | DeleteFile (filename : String)
deriving DecidableEq, Repr

/-- The errors the modelled functions return. -/
inductive GoError where
  | statFailed
  | hashFailed
  | saveFailed
  | removeFailed
deriving DecidableEq, Repr

/-- The fields of `config.Config` read by the uploader and the watcher.
`validateConfig` replaces a non-positive `BatchSize` by 5 and a non-positive
`MaxFileSizeMB` by 8; a negative `BatchSize` would make the slice expression
of `uploadBatch` fail at run time, so it is a natural number here. -/
structure Config where
  BatchSize : Nat
  MaxFileSizeMB : Int
  DeleteAfterUpload : Bool
deriving DecidableEq, Repr

/-- The state the upload pipeline works on. -/
structure World where
  /-- The file system. -/
  fs : FileSys
  /-- Reading of `time.Now()`. -/
  now : Nat
  /-- Whether `os.MkdirAll` on the directory of the history file succeeds. -/
  dirOk : Bool
  /-- Whether `os.WriteFile` on the history file succeeds. -/
  writable : Bool
  /-- Content of the history file; `none` when it has never been written. -/
  persisted : Option Records
  /-- The entries of the map `History.records`. -/
  records : Records
  /-- Whether `History.records` is the nil map, as `json.Unmarshal` leaves it for
  the content `null`.  A nil map has no entries and reads of it find nothing, so
  `records` is then empty; an assignment to an entry of a nil map panics. -/
  nilMap : Bool
  /-- The field `Uploader.queue`. -/
  queue : List String
  /-- Ghost: calls made to collaborators, oldest first. -/
  trace : List Event
  /-- Ghost: number of calls of `History.save`. -/
  saves : Nat

/-- The delivery calls in the trace, oldest first. -/
def deliveries (w : World) : List Call :=
  w.trace.filterMap (fun e => match e with
    | Event.deliver c => some c
    | _ => none)

/-! ## Mutexes -/

/-- State of a `sync.RWMutex`: free, held by `readers` readers, or held by a writer. -/
inductive RWMutex where
  | unlocked
  | rlocked (readers : Nat)
  | locked
deriving DecidableEq, Repr

namespace RWMutex

/-- `Lock`: granted on a free mutex only; `none` when the caller has to wait. -/
def Lock : RWMutex → Option RWMutex
  | unlocked => some locked
  | _ => none

/-- `Unlock`: `none` is the run-time error for a mutex not held by a writer. -/
def Unlock : RWMutex → Option RWMutex
  | locked => some unlocked
  | _ => none

/-- `RLock`: granted unless a writer holds the mutex; `none` when the caller has to wait. -/
def RLock : RWMutex → Option RWMutex
  | unlocked => some (rlocked 1)
  | rlocked n => some (rlocked (n + 1))
  | locked => none

/-- `RUnlock`: `none` is the run-time error for a mutex not held by a reader. -/
def RUnlock : RWMutex → Option RWMutex
  | rlocked 1 => some unlocked
  | rlocked (n + 2) => some (rlocked (n + 1))
  | _ => none

end RWMutex

/-- The state of the two mutexes at a call. -/
structure Locks where
  /-- The field `History.mutex`. -/
  mutex : RWMutex
  /-- The field `Uploader.queueMutex`. -/
  queueMutex : RWMutex
deriving DecidableEq, Repr

/-- Both mutexes free: the state in which the goroutines call the exported functions. -/
def Locks.free : Locks := { mutex := RWMutex.unlocked, queueMutex := RWMutex.unlocked }

/-- Outcome of a call: it returns a value, or it never returns because a mutex
operation does not complete, the state then being `w`, or it panics in state
`w`.  No function of the source recovers from a panic. -/
inductive Run (α : Type) where
  | returns (value : α)
  | blocked (w : World)
  | panics (w : World)

/-- Sequencing: what follows a call that does not return is not run. -/
def Run.bind {α β : Type} (r : Run α) (f : α → Run β) : Run β :=
  match r with
  | Run.returns a => f a
  | Run.blocked w => Run.blocked w
  | Run.panics w => Run.panics w

instance : Monad Run where
  pure := Run.returns
  bind := Run.bind

/-- A mutex operation made in state `w`. -/
def Run.ofLock (w : World) (r : Option RWMutex) : Run RWMutex :=
  match r with
  | some m => Run.returns m
  | none => Run.blocked w

/-- The value a call returns, if it returns. -/
def Run.value? {α : Type} : Run α → Option α
  | Run.returns a => some a
  | Run.blocked _ => none
  | Run.panics _ => none

/-- The state in which a call hangs, if it hangs. -/
def Run.blockedAt? {α : Type} : Run α → Option World
  | Run.returns _ => none
  | Run.blocked w => some w
  | Run.panics _ => none

/-- The state in which a call panics, if it panics. -/
def Run.panickedAt? {α : Type} : Run α → Option World
  | Run.returns _ => none
  | Run.blocked _ => none
  | Run.panics w => some w

/-- The state a call ends in: the state it returns, or the state in which it
hangs or panics. -/
def Run.endState : Run World → World
  | Run.returns w => w
  | Run.blocked w => w
  | Run.panics w => w

/-! ## `internal/history/history.go` -/

namespace History

/-- `History.calculateFileHash`. -/
def calculateFileHash (w : World) (filePath : String) : Option String :=
  (w.fs filePath).hash

/-- `History.IsUploaded`; the read lock is released by a deferred `RUnlock`. -/
def IsUploaded (l : Locks) (w : World) (filePath : String) : Run Bool := do
  let m ← Run.ofLock w l.mutex.RLock
  let result :=
    match (w.fs filePath).stat with
    | StatResult.ok size =>
      match calculateFileHash w filePath with
      | some hash =>
        match mapGet w.records filePath with
        | some record => decide (record.FileHash = hash) && decide (record.FileSize = size)
        | none => false
      | none => false
    | _ => false
  let _ ← Run.ofLock w m.RUnlock
  pure result

/-- `History.save`: rewrites the history file with the whole map.  The map is
serialised under `RLock`, after `os.MkdirAll` and before `os.WriteFile`;
`json.MarshalIndent` does not fail on a map of records.  A nil map is
serialised as `null`, which `persisted` does not tell from the empty map; no
function below calls `save` on a nil map. -/
def save (l : Locks) (w : World) : Run (World × Option GoError) := do
  let w1 := { w with saves := w.saves + 1 }
  if !w1.dirOk then
    pure (w1, some GoError.saveFailed)
  else
    let m ← Run.ofLock w1 l.mutex.RLock
    let data := w1.records
    let _ ← Run.ofLock w1 m.RUnlock
    if w1.writable then
      pure ({ w1 with persisted := some data }, none)
    else
      pure (w1, some GoError.saveFailed)

/-- `History.MarkUploaded`: the lock is released before `save` is called.  The
assignment `h.records[filePath] = record` panics when the map is nil. -/
def MarkUploaded (l : Locks) (w : World) (filePath : String) (discordURL : String) :
    Run (World × Option GoError) :=
  match (w.fs filePath).stat with
  | StatResult.ok size =>
    match calculateFileHash w filePath with
    | some hash => do
      let record : UploadRecord :=
        { FilePath := filePath, FileHash := hash, FileSize := size,
          UploadedAt := w.now, DiscordURL := discordURL }
      let m1 ← Run.ofLock w l.mutex.Lock
      if w.nilMap then Run.panics w
      else
        let w1 := { w with records := mapSet w.records filePath record }
        let m2 ← Run.ofLock w1 m1.Unlock
        save { l with mutex := m2 } w1
    | none => pure (w, some GoError.hashFailed)
  | _ => pure (w, some GoError.statFailed)

/-- `History.GetUploadCount`. -/
def GetUploadCount (l : Locks) (w : World) : Run Nat := do
  let m ← Run.ofLock w l.mutex.RLock
  let n := w.records.length
  let _ ← Run.ofLock w m.RUnlock
  pure n

/-- `History.CleanupMissingFiles`: the lock taken on entry is released by a
deferred `Unlock`, so it is held while `save` runs. -/
def CleanupMissingFiles (l : Locks) (w : World) : Run (World × Option GoError) := do
  let m1 ← Run.ofLock w l.mutex.Lock
  let toRemove := (w.records.map Prod.fst).filter
    (fun filePath => decide ((w.fs filePath).stat = StatResult.notExist))
  let w1 := { w with records := toRemove.foldl mapDelete w.records }
  let r ← if toRemove.length > 0 then save { l with mutex := m1 } w1 else pure (w1, none)
  let _ ← Run.ofLock r.1 m1.Unlock
  pure r

end History

/-! ## `Watcher.DeleteFile` of `internal/watcher/watcher.go` -/

namespace Watcher

/-- `Watcher.DeleteFile`, reading `deleteAfterUpload` from the configuration. -/
def DeleteFile (cfg : Config) (w : World) (filename : String) : World × Option GoError :=
  if !cfg.DeleteAfterUpload then (w, none)
  else if (w.fs filename).removable then
    ({ w with fs := fun p => if p = filename then FileState.gone else w.fs p }, none)
  else (w, some GoError.removeFailed)

end Watcher

/-! ## `internal/uploader/uploader.go` -/

namespace Uploader

/-- Wrap of an integer to the range of `int64`. -/
def wrapInt64 (x : Int) : Int :=
  (x + 2 ^ 63) % 2 ^ 64 - 2 ^ 63

/-- The local `maxSizeBytes` of `isValidFile`:
`int64(u.config.Upload.MaxFileSizeMB) * 1024 * 1024`. -/
def maxSizeBytes (cfg : Config) : Int :=
  wrapInt64 (wrapInt64 (wrapInt64 cfg.MaxFileSizeMB * 1024) * 1024)

/-- `Uploader.isValidFile`. -/
def isValidFile (cfg : Config) (w : World) (file : String) : Bool :=
  match (w.fs file).stat with
  | StatResult.ok size => if size > maxSizeBytes cfg then false else true
  | _ => false

/-- The body of the loop of `Uploader.addToQueue` for one candidate.  The
condition `isValidFile(file) && !IsUploaded(file)` calls `IsUploaded` only for
a valid file; the `else if` calls it to choose the log line. -/
def addToQueueLoopBody (cfg : Config) (l : Locks) (u : World) (file : String) :
    Run World := do
  let accept ←
    if isValidFile cfg u file then do
      let uploaded ← History.IsUploaded l u file
      pure (!uploaded)
    else pure false
  if accept then
    pure { u with queue := u.queue ++ [file] }
  else do
    let _ ← History.IsUploaded l u file
    pure u

/-- `Uploader.addToQueue`; the queue lock is released by a deferred `Unlock`. -/
def addToQueue (cfg : Config) (l : Locks) (w : World) (files : List String) : Run World := do
  let m1 ← Run.ofLock w l.queueMutex.Lock
  let w1 ← files.foldlM (addToQueueLoopBody cfg { l with queueMutex := m1 }) w
  let _ ← Run.ofLock w1 m1.Unlock
  pure w1

/-- `Uploader.handleSuccessfulUpload`: both calls are made whatever the first returns. -/
def handleSuccessfulUpload (cfg : Config) (l : Locks) (w : World) (file : String) :
    Run World := do
  let w1 := { w with trace := w.trace ++ [Event.MarkUploaded file ""] }
  let r ← History.MarkUploaded l w1 file ""
  let w2 := r.1
  let w3 := { w2 with trace := w2.trace ++ [Event.DeleteFile file] }
  pure (Watcher.DeleteFile cfg w3 file).1

/-- `Uploader.uploadBatch`: one tick of the drain loop; the queue lock is
released by a deferred `Unlock` on every return. -/
def uploadBatch (cfg : Config) (deliver : Call → Bool) (l : Locks) (w : World) :
    Run World := do
  let m1 ← Run.ofLock w l.queueMutex.Lock
  let held := { l with queueMutex := m1 }
  let w5 ←
    if w.queue.length = 0 then pure w
    else
      let batchSize :=
        if cfg.BatchSize > w.queue.length then w.queue.length else cfg.BatchSize
      let batch := w.queue.take batchSize
      let w1 := { w with queue := w.queue.drop batchSize }
      match batch with
      | [file] =>
        let w2 := { w1 with trace := w1.trace ++ [Event.deliver (Call.UploadImage file)] }
        if deliver (Call.UploadImage file) then handleSuccessfulUpload cfg held w2 file
        else pure { w2 with queue := [file] ++ w2.queue }
      | _ =>
        let w2 := { w1 with trace := w1.trace ++ [Event.deliver (Call.UploadImages batch)] }
        if deliver (Call.UploadImages batch) then
          batch.foldlM (handleSuccessfulUpload cfg held) w2
        else pure { w2 with queue := batch ++ w2.queue }
  let _ ← Run.ofLock w5 m1.Unlock
  pure w5

/-- `Uploader.processRemainingQueue`: the read lock is released before
`uploadBatch` is called. -/
def processRemainingQueue (cfg : Config) (deliver : Call → Bool) (l : Locks) (w : World) :
    Run World := do
  let m1 ← Run.ofLock w l.queueMutex.RLock
  let queueLength := w.queue.length
  let m2 ← Run.ofLock w m1.RUnlock
  if queueLength > 0 then uploadBatch cfg deliver { l with queueMutex := m2 } w
  else pure w

/-- `Uploader.Stop`: stopping the ticker and closing `doneChan` do not touch the
modelled state; the final flush does. -/
def Stop (cfg : Config) (deliver : Call → Bool) (l : Locks) (w : World) : Run World :=
  processRemainingQueue cfg deliver l w

/-- `Uploader.GetQueueLength`. -/
def GetQueueLength (l : Locks) (w : World) : Run Nat := do
  let m ← Run.ofLock w l.queueMutex.RLock
  let n := w.queue.length
  let _ ← Run.ofLock w m.RUnlock
  pure n

end Uploader

/-! ## The functions without their locks

For each function above that takes a lock, the state transformer it computes
when no lock operation blocks. -/

namespace Seq

/-- The value `History.IsUploaded` returns. -/
def IsUploaded (w : World) (filePath : String) : Bool :=
  match (w.fs filePath).stat with
  | StatResult.ok size =>
    match History.calculateFileHash w filePath with
    | some hash =>
      match mapGet w.records filePath with
      | some record => decide (record.FileHash = hash) && decide (record.FileSize = size)
      | none => false
    | none => false
  | _ => false

/-- The effect of `History.save`. -/
def save (w : World) : World × Option GoError :=
  let w1 := { w with saves := w.saves + 1 }
  if !w1.dirOk then (w1, some GoError.saveFailed)
  else if w1.writable then ({ w1 with persisted := some w1.records }, none)
  else (w1, some GoError.saveFailed)

/-- The effect of `History.MarkUploaded`. -/
def MarkUploaded (w : World) (filePath : String) (discordURL : String) :
    World × Option GoError :=
  match (w.fs filePath).stat with
  | StatResult.ok size =>
    match History.calculateFileHash w filePath with
    | some hash =>
      let record : UploadRecord :=
        { FilePath := filePath, FileHash := hash, FileSize := size,
          UploadedAt := w.now, DiscordURL := discordURL }
      save { w with records := mapSet w.records filePath record }
    | none => (w, some GoError.hashFailed)
  | _ => (w, some GoError.statFailed)

/-- The effect of `Uploader.addToQueue`. -/
def addToQueue (cfg : Config) (w : World) (files : List String) : World :=
  files.foldl (fun u file =>
    if Uploader.isValidFile cfg u file && !IsUploaded u file then
      { u with queue := u.queue ++ [file] }
    else u) w

/-- The effect of `Uploader.handleSuccessfulUpload`. -/
def handleSuccessfulUpload (cfg : Config) (w : World) (file : String) : World :=
  let w1 := { w with trace := w.trace ++ [Event.MarkUploaded file ""] }
  let w2 := (MarkUploaded w1 file "").1
  let w3 := { w2 with trace := w2.trace ++ [Event.DeleteFile file] }
  (Watcher.DeleteFile cfg w3 file).1

/-- The effect of `Uploader.uploadBatch`. -/
def uploadBatch (cfg : Config) (deliver : Call → Bool) (w : World) : World :=
  if w.queue.length = 0 then w
  else
    let batchSize := if cfg.BatchSize > w.queue.length then w.queue.length else cfg.BatchSize
    let batch := w.queue.take batchSize
    let w1 := { w with queue := w.queue.drop batchSize }
    match batch with
    | [file] =>
      let w2 := { w1 with trace := w1.trace ++ [Event.deliver (Call.UploadImage file)] }
      if deliver (Call.UploadImage file) then handleSuccessfulUpload cfg w2 file
      else { w2 with queue := [file] ++ w2.queue }
    | _ =>
      let w2 := { w1 with trace := w1.trace ++ [Event.deliver (Call.UploadImages batch)] }
      if deliver (Call.UploadImages batch) then
        batch.foldl (handleSuccessfulUpload cfg) w2
      else { w2 with queue := batch ++ w2.queue }

/-- The effect of `Uploader.processRemainingQueue`. -/
def processRemainingQueue (cfg : Config) (deliver : Call → Bool) (w : World) : World :=
  let queueLength := w.queue.length
  if queueLength > 0 then uploadBatch cfg deliver w else w

end Seq

/-! ## Notions of the specification and example data -/

/-- The admission test of the enqueue policy in the words of the specification:
`os.Stat` succeeds on the file, its size does not exceed the configured maximum,
and the history does not report it as uploaded. -/
def admitted (cfg : Config) (w : World) (file : String) : Bool :=
  match (w.fs file).stat with
  | StatResult.ok size =>
    decide (size ≤ Uploader.maxSizeBytes cfg) && !Seq.IsUploaded w file
  | _ => false

/-- States reachable from an empty queue by `addToQueue` and `uploadBatch` calls
made with both mutexes free, with any candidates and any delivery outcomes. -/
inductive Reachable (cfg : Config) : World → Prop where
  | init (w : World) (h : w.queue = []) : Reachable cfg w
  | add (w w2 : World) (files : List String) (h : Reachable cfg w)
      (hr : Uploader.addToQueue cfg Locks.free w files = Run.returns w2) : Reachable cfg w2
  | tick (w w2 : World) (deliver : Call → Bool) (h : Reachable cfg w)
      (hr : Uploader.uploadBatch cfg deliver Locks.free w = Run.returns w2) : Reachable cfg w2

/-- Example file system: two readable three-byte images. -/
def fsTwo : FileSys := fun p =>
  if p = "a.png" then { stat := StatResult.ok 3, hash := some "ha", removable := true }
  else if p = "b.png" then { stat := StatResult.ok 3, hash := some "hb", removable := true }
  else FileState.gone

/-- Example state: empty queue, empty history, the files of `fsTwo`. -/
def worldTwo : World :=
  { fs := fsTwo, now := 0, dirOk := true, writable := true, persisted := none,
    records := [], nilMap := false, queue := [], trace := [], saves := 0 }

/-- Example state: `a.png` queued. -/
def worldSingle : World := { worldTwo with queue := ["a.png"] }

/-- Example state: `a.png` and `b.png` queued. -/
def worldQueued : World := { worldTwo with queue := ["a.png", "b.png"] }

/-- Example state: the history, as loaded from its file, records `a.png`, which
exists, and `old.png`, which does not. -/
def worldStale : World :=
  { worldTwo with
    records :=
      [("a.png", ⟨"a.png", "ha", 3, 0, ""⟩), ("old.png", ⟨"old.png", "ho", 5, 0, ""⟩)],
    persisted :=
      some [("a.png", ⟨"a.png", "ha", 3, 0, ""⟩), ("old.png", ⟨"old.png", "ho", 5, 0, ""⟩)] }

/-- Example configuration with batch size 1 that keeps files after upload. -/
def cfgOne : Config := { BatchSize := 1, MaxFileSizeMB := 8, DeleteAfterUpload := false }

/-- Example configuration with the default batch size 5. -/
def cfgFive : Config := { BatchSize := 5, MaxFileSizeMB := 8, DeleteAfterUpload := true }

/-! ## The watcher filter, the history loader and the drain loop -/

/-- `os.IsPathSeparator` on Unix. -/
def IsPathSeparator (c : Char) : Bool :=
  decide (c = '/')

namespace filepath

/-- The loop of `filepath.Ext`, from the last character of the path towards the
first: the first argument holds the characters not yet visited, last one first,
the second the characters already passed. -/
def ExtLoop : List Char → List Char → List Char
  | [], _ => []
  | c :: rest, passed =>
    if IsPathSeparator c then []
    else if c = '.' then c :: passed
    else ExtLoop rest (c :: passed)

/-- `filepath.Ext`: the suffix beginning at the final dot of the final element of
the path, empty if there is no dot. -/
def Ext (path : String) : String :=
  String.mk (ExtLoop path.data.reverse [])

end filepath

namespace strings

/-- `strings.ToLower`: every rune mapped by `unicode.ToLower`, which is the
parameter `lower`. -/
def ToLower (lower : Char → Char) (s : String) : String :=
  String.mk (s.data.map lower)

end strings

/-- One call of the callback by `filepath.Walk`: the path, `info.IsDir()`, and
whether the `err` argument is non-nil. -/
structure WalkEntry where
  path : String
  isDir : Bool
  err : Bool
deriving DecidableEq, Repr

namespace Watcher

/-- `Watcher.isImageFile`, with the field `supportedFormats` as an argument. -/
def isImageFile (lower : Char → Char) (supportedFormats : List String)
    (filename : String) : Bool :=
  let ext := strings.ToLower lower (filepath.Ext filename)
  supportedFormats.any (fun supportedExt => decide (ext = supportedExt))

/-- The callback of `Watcher.ScanExistingFiles` run over the calls `filepath.Walk`
makes, in order; `none` when the callback returns an error, which stops the
walk. -/
def scanLoop (lower : Char → Char) (supportedFormats : List String) :
    List WalkEntry → List String → Option (List String)
  | [], files => some files
  | e :: rest, files =>
    if e.err then none
    else if !e.isDir && isImageFile lower supportedFormats e.path then
      scanLoop lower supportedFormats rest (files ++ [e.path])
    else scanLoop lower supportedFormats rest files

/-- `Watcher.ScanExistingFiles`; `walk` lists the calls `filepath.Walk` makes on
`watchPath`, and `none` is the error return. -/
def ScanExistingFiles (lower : Char → Char) (supportedFormats : List String)
    (walk : List WalkEntry) : Option (List String) :=
  scanLoop lower supportedFormats walk []

end Watcher

/-- Result of `os.ReadFile` on the history file: the content, an error for which
`os.IsNotExist` holds, or any other error. -/
inductive ReadFileResult where
  | data (bytes : String)
  | notExist
  | otherErr
deriving DecidableEq, Repr

/-- The errors `History.load` returns. -/
inductive LoadError where
  | readNotExist
  | readFailed
  | unmarshalFailed
deriving DecidableEq, Repr

/-- `os.IsNotExist` on the errors of `History.load`. -/
def LoadError.IsNotExist : LoadError → Bool
  | LoadError.readNotExist => true
  | _ => false

namespace History

/-- `History.load`.  `unmarshal data m` is `json.Unmarshal(data, &m)` on a map
with the entries `m`: the entries of the map afterwards, or `none` when the map
is then nil, and whether the error is nil. -/
def load (readFile : ReadFileResult)
    (unmarshal : String → Records → Option Records × Bool)
    (w : World) : World × Option LoadError :=
  match readFile with
  | ReadFileResult.data bytes =>
    let r := unmarshal bytes w.records
    let w1 :=
      match r.1 with
      | some m => { w with records := m, nilMap := false }
      | none => { w with records := [], nilMap := true }
    (w1, if r.2 then none else some LoadError.unmarshalFailed)
  | ReadFileResult.notExist => (w, some LoadError.readNotExist)
  | ReadFileResult.otherErr => (w, some LoadError.readFailed)

/-- `history.New`.  The new store starts from the empty map of `make`; `env`
gives the rest of the state, its `records` are not read. -/
def New (env : World) (readFile : ReadFileResult)
    (unmarshal : String → Records → Option Records × Bool) : Except LoadError World :=
  let h := { env with records := [], nilMap := false }
  let r := load readFile unmarshal h
  match r.2 with
  | some err => if !err.IsNotExist then Except.error err else Except.ok r.1
  | none => Except.ok r.1

end History

namespace Uploader

/-- `Uploader.processQueue`: one `uploadBatch` for every tick received on
`ticker.C` until `doneChan` is closed.  The list holds, for each tick received,
the outcomes of the delivery calls during that tick. -/
def processQueue (cfg : Config) (l : Locks) : List (Call → Bool) → World → Run World
  | [], w => pure w
  | deliver :: rest, w => do
    let w1 ← uploadBatch cfg deliver l w
    processQueue cfg l rest w1

end Uploader

namespace Seq

/-- The effect of `Uploader.processQueue`. -/
def processQueue (cfg : Config) : List (Call → Bool) → World → World
  | [], w => w
  | deliver :: rest, w => processQueue cfg rest (uploadBatch cfg deliver w)

end Seq

/-- Case-insensitive equality of two strings: equal after `strings.ToLower`. -/
def equalIgnoringCase (lower : Char → Char) (a b : String) : Prop :=
  strings.ToLower lower a = strings.ToLower lower b

/-- The delivery call for a batch in the words of the specification: a
single-file delivery if exactly one path was taken, otherwise a multi-file
delivery. -/
def Call.ofBatch (batch : List String) : Call :=
  match batch with
  | [file] => Call.UploadImage file
  | _ => Call.UploadImages batch

/-- The state `w` after `n` failed attempts of the delivery call `c`: the queue
and the history as they were, the attempts logged. -/
def afterRetries (w : World) (c : Call) (n : Nat) : World :=
  { w with trace := w.trace ++ List.replicate n (Event.deliver c) }

/-- The path `p` is included in a delivery attempt made after state `w` and up
to state `w2`. -/
def attemptedSince (w w2 : World) (p : String) : Prop :=
  ∃ c ∈ (deliveries w2).drop (deliveries w).length, p ∈ c.paths

/-- Example delivery outcomes: every call that carries `a.png` fails, every
other call succeeds. -/
def deliverFailingA (c : Call) : Bool :=
  !decide ("a.png" ∈ c.paths)

/-- Example walk: a root directory holding `a.PNG`, `notes.txt` and a directory
named `dir.png`. -/
def walkExample : List WalkEntry :=
  [{ path := "watch", isDir := true, err := false },
   { path := "watch/a.PNG", isDir := false, err := false },
   { path := "watch/dir.png", isDir := true, err := false },
   { path := "watch/notes.txt", isDir := false, err := false }]

/-- The admission test with the maximum of the specification, the product
`MaxFileSizeMB * 1024 * 1024` itself. -/
def admittedByProduct (cfg : Config) (w : World) (file : String) : Bool :=
  match (w.fs file).stat with
  | StatResult.ok size =>
    decide (size ≤ cfg.MaxFileSizeMB * 1024 * 1024) && !Seq.IsUploaded w file
  | _ => false

/-- Example configuration whose maximum file size is `2 ^ 43` megabytes. -/
def cfgHuge : Config :=
  { BatchSize := 5, MaxFileSizeMB := 8796093022208, DeleteAfterUpload := false }

/-- Example decoder: the content `null` leaves the map nil without an error, as
`json.Unmarshal` does; any other content is refused. -/
def unmarshalNull (data : String) (m : Records) : Option Records × Bool :=
  if data = "null" then (none, true) else (some m, false)

/-- Example state: the store `New` returns for a history file holding `null`,
with the files of `fsTwo`. -/
def worldNull : World := { worldTwo with nilMap := true }

/-- Example state: the store of `worldNull` with `a.png` queued. -/
def worldNullSingle : World := { worldNull with queue := ["a.png"] }

/-- Example state: the store of `worldNull` with `a.png` and `b.png` queued. -/
def worldNullQueued : World := { worldNull with queue := ["a.png", "b.png"] }

/-- Example run: `a.png` is enqueued twice, by two calls of `addToQueue`, and one
tick with batch size 1 delivers it. -/
def runTwiceQueued : Run World := do
  let w1 ← Uploader.addToQueue cfgOne Locks.free worldTwo ["a.png"]
  let w2 ← Uploader.addToQueue cfgOne Locks.free w1 ["a.png"]
  Uploader.uploadBatch cfgOne (fun _ => true) Locks.free w2

/-- For every file of the list, in order, `History.MarkUploaded` and then
`Watcher.DeleteFile`, whatever `MarkUploaded` returns. -/
def markAndDeleteAll (cfg : Config) : List String → World → Run World
  | [], w => pure w
  | file :: rest, w => do
    let r ← History.MarkUploaded Locks.free w file ""
    markAndDeleteAll cfg rest (Watcher.DeleteFile cfg r.1 file).1

/-- The effect of one step of `markAndDeleteAll`. -/
def Seq.markAndDelete (cfg : Config) (w : World) (file : String) : World :=
  (Watcher.DeleteFile cfg (Seq.MarkUploaded w file "").1 file).1

/-- Two states with the same file system and the same history: they differ at
most in the queue and the log of calls. -/
def sameStore (a b : World) : Prop :=
  a.fs = b.fs ∧ a.now = b.now ∧ a.dirOk = b.dirOk ∧ a.writable = b.writable ∧
  a.persisted = b.persisted ∧ a.records = b.records ∧ a.nilMap = b.nilMap ∧
  a.saves = b.saves

/-! ## Lemmas on the model -/

open Seq Watcher
open History (calculateFileHash)
open Uploader (maxSizeBytes isValidFile wrapInt64)

theorem batchSize_eq_min (b n : Nat) : (if b > n then n else b) = min b n := by
  split <;> omega

theorem save_queue (w : World) : (save w).1.queue = w.queue := by
  cases hd : w.dirOk <;> cases hw : w.writable <;> simp [save, hd, hw]

theorem save_trace (w : World) : (save w).1.trace = w.trace := by
  cases hd : w.dirOk <;> cases hw : w.writable <;> simp [save, hd, hw]

theorem save_fs (w : World) : (save w).1.fs = w.fs := by
  cases hd : w.dirOk <;> cases hw : w.writable <;> simp [save, hd, hw]

theorem save_records (w : World) : (save w).1.records = w.records := by
  cases hd : w.dirOk <;> cases hw : w.writable <;> simp [save, hd, hw]

theorem MarkUploaded_queue (w : World) (f r : String) : (MarkUploaded w f r).1.queue = w.queue := by
  unfold MarkUploaded
  split
  · split
    · rw [save_queue]
    · rfl
  · rfl

theorem MarkUploaded_trace (w : World) (f r : String) : (MarkUploaded w f r).1.trace = w.trace := by
  unfold MarkUploaded
  split
  · split
    · rw [save_trace]
    · rfl
  · rfl

theorem MarkUploaded_fs (w : World) (f r : String) : (MarkUploaded w f r).1.fs = w.fs := by
  unfold MarkUploaded
  split
  · split
    · rw [save_fs]
    · rfl
  · rfl

theorem DeleteFile_queue (cfg : Config) (w : World) (f : String) :
    (DeleteFile cfg w f).1.queue = w.queue := by
  unfold DeleteFile
  split
  · rfl
  · split <;> rfl

theorem DeleteFile_trace (cfg : Config) (w : World) (f : String) :
    (DeleteFile cfg w f).1.trace = w.trace := by
  unfold DeleteFile
  split
  · rfl
  · split <;> rfl

theorem DeleteFile_records (cfg : Config) (w : World) (f : String) :
    (DeleteFile cfg w f).1.records = w.records := by
  unfold DeleteFile
  split
  · rfl
  · split <;> rfl

theorem handleSuccessfulUpload_queue (cfg : Config) (w : World) (f : String) :
    (handleSuccessfulUpload cfg w f).queue = w.queue := by
  simp [handleSuccessfulUpload, DeleteFile_queue, MarkUploaded_queue]

theorem handleSuccessfulUpload_trace (cfg : Config) (w : World) (f : String) :
    (handleSuccessfulUpload cfg w f).trace
      = w.trace ++ [Event.MarkUploaded f "", Event.DeleteFile f] := by
  simp [handleSuccessfulUpload, DeleteFile_trace, MarkUploaded_trace]

theorem foldl_handle_queue (cfg : Config) (fs : List String) (w : World) :
    (fs.foldl (handleSuccessfulUpload cfg) w).queue = w.queue := by
  induction fs generalizing w with
  | nil => rfl
  | cons f rest ih => rw [List.foldl_cons, ih, handleSuccessfulUpload_queue]

theorem foldl_handle_trace (cfg : Config) (fs : List String) (w : World) :
    (fs.foldl (handleSuccessfulUpload cfg) w).trace
      = w.trace ++ fs.flatMap (fun f => [Event.MarkUploaded f "", Event.DeleteFile f]) := by
  induction fs generalizing w with
  | nil => simp
  | cons f rest ih =>
    rw [List.foldl_cons, ih, handleSuccessfulUpload_trace]
    simp [List.flatMap_cons]

/-! ## The drain tick -/

/-- Shape of the state after one tick on a non-empty queue, by outcome of the one
delivery call. -/
theorem uploadBatch_cases (cfg : Config) (deliver : Call → Bool) (w : World)
    (hq : w.queue ≠ []) :
    ∃ c : Call, c.paths = w.queue.take (min cfg.BatchSize w.queue.length) ∧
      (∀ f, w.queue.take (min cfg.BatchSize w.queue.length) = [f] →
        c = Call.UploadImage f) ∧
      ((∀ f, w.queue.take (min cfg.BatchSize w.queue.length) ≠ [f]) →
        c = Call.UploadImages (w.queue.take (min cfg.BatchSize w.queue.length))) ∧
      ((deliver c = false ∧
          uploadBatch cfg deliver w
            = { w with trace := w.trace ++ [Event.deliver c] }) ∨
       (deliver c = true ∧
          uploadBatch cfg deliver w
            = c.paths.foldl (handleSuccessfulUpload cfg)
                { w with queue := w.queue.drop (min cfg.BatchSize w.queue.length),
                         trace := w.trace ++ [Event.deliver c] })) := by
  have hlen : ¬ w.queue.length = 0 := by
    intro h; exact hq (List.length_eq_zero.mp h)
  unfold uploadBatch
  rw [if_neg hlen]
  simp only [batchSize_eq_min]
  generalize hn : min cfg.BatchSize w.queue.length = n
  have htd : w.queue.take n ++ w.queue.drop n = w.queue := List.take_append_drop n w.queue
  split
  · rename_i file hb
    refine ⟨Call.UploadImage file, by simp [Call.paths, hb], ?_, ?_, ?_⟩
    · intro f hf
      rw [hb] at hf
      cases hf
      rfl
    · intro hne
      exact absurd hb (hne file)
    cases hd : deliver (Call.UploadImage file)
    · left
      refine ⟨rfl, ?_⟩
      simp only [Bool.false_eq_true, if_false]
      rw [← hb, htd]
    · right
      refine ⟨rfl, ?_⟩
      simp [Call.paths]
  · rename_i hb
    refine ⟨Call.UploadImages (w.queue.take n), rfl, ?_, fun _ => rfl, ?_⟩
    · intro f hf
      exact absurd hf (hb f)
    cases hd : deliver (Call.UploadImages (w.queue.take n))
    · left
      refine ⟨rfl, ?_⟩
      simp only [Bool.false_eq_true, if_false]
      rw [htd]
    · right
      refine ⟨rfl, ?_⟩
      simp [Call.paths]


theorem uploadBatch_empty (cfg : Config) (deliver : Call → Bool) (w : World)
    (hq : w.queue = []) : uploadBatch cfg deliver w = w := by
  unfold uploadBatch
  rw [if_pos (by rw [hq]; rfl)]

theorem deliveries_snoc_deliver (w : World) (c : Call) (es : List Event)
    (hes : ∀ e ∈ es, ∀ d, e ≠ Event.deliver d) (w2 : World)
    (h : w2.trace = w.trace ++ [Event.deliver c] ++ es) :
    deliveries w2 = deliveries w ++ [c] := by
  unfold deliveries
  rw [h, List.filterMap_append, List.filterMap_append]
  have hnil : es.filterMap (fun e => match e with
      | Event.deliver c => some c
      | _ => none) = [] := by
    rw [List.filterMap_eq_nil_iff]
    intro e he
    cases e with
    | deliver d => exact absurd rfl (hes _ he d)
    | MarkUploaded f r => rfl
    | DeleteFile f => rfl
  rw [hnil]
  simp


/-- Without locks: a tick whose delivery call fails leaves the queue and the records
as they were. -/
theorem seq_uploadBatch_failure (cfg : Config) (deliver : Call → Bool)
    (w : World)
    (hfail : ∀ c : Call,
      c.paths = w.queue.take (min cfg.BatchSize w.queue.length) → deliver c = false) :
    (uploadBatch cfg deliver w).queue = w.queue ∧
    (uploadBatch cfg deliver w).queue
      = w.queue.take (min cfg.BatchSize w.queue.length)
        ++ w.queue.drop (min cfg.BatchSize w.queue.length) ∧
    (uploadBatch cfg deliver w).queue.take
        (min cfg.BatchSize (uploadBatch cfg deliver w).queue.length)
      = w.queue.take (min cfg.BatchSize w.queue.length) ∧
    (uploadBatch cfg deliver w).records = w.records := by
  have key : (uploadBatch cfg deliver w).queue = w.queue ∧
      (uploadBatch cfg deliver w).records = w.records := by
    by_cases hq : w.queue = []
    · rw [uploadBatch_empty cfg deliver w hq]; exact ⟨rfl, rfl⟩
    · obtain ⟨c, hc, _, _, h | h⟩ := uploadBatch_cases cfg deliver w hq
      · rw [h.2]; exact ⟨rfl, rfl⟩
      · have := hfail c hc
        rw [h.1] at this
        exact absurd this (by decide)
  refine ⟨key.1, ?_, ?_, key.2⟩
  · rw [key.1, List.take_append_drop]
  · rw [key.1]

/-- Without locks: the one delivery call of a tick carries the front batch, and a
successful tick drops it from the queue. -/
theorem seq_uploadBatch_front_batch (cfg : Config) (deliver : Call → Bool)
    (w : World) :
    (w.queue = [] →
      uploadBatch cfg deliver w = w ∧ deliveries (uploadBatch cfg deliver w) = deliveries w ∧
      (uploadBatch cfg deliver w).queue = []) ∧
    (w.queue ≠ [] →
      ∃ c : Call,
        deliveries (uploadBatch cfg deliver w) = deliveries w ++ [c] ∧
        c.paths = w.queue.take (min cfg.BatchSize w.queue.length) ∧
        (deliver c = true →
          (uploadBatch cfg deliver w).queue
            = w.queue.drop (min cfg.BatchSize w.queue.length))) := by
  constructor
  · intro hq
    rw [uploadBatch_empty cfg deliver w hq]
    exact ⟨rfl, rfl, hq⟩
  · intro hq
    obtain ⟨c, hc, _, _, h | h⟩ := uploadBatch_cases cfg deliver w hq
    · refine ⟨c, ?_, hc, ?_⟩
      · rw [h.2]
        exact deliveries_snoc_deliver w c [] (by simp) _ (by simp)
      · intro ht; rw [h.1] at ht; exact absurd ht (by decide)
    · refine ⟨c, ?_, hc, ?_⟩
      · rw [h.2]
        refine deliveries_snoc_deliver w c
          (c.paths.flatMap (fun f => [Event.MarkUploaded f "", Event.DeleteFile f])) ?_ _ ?_
        · intro e he d
          rw [List.mem_flatMap] at he
          obtain ⟨f, _, hf⟩ := he
          simp at hf
          rcases hf with rfl | rfl <;> simp
        · rw [foldl_handle_trace]
      · intro _
        rw [h.2, foldl_handle_queue]


/-! ## Enqueue policy -/

theorem wrapInt64_of_range (x : Int) (h1 : -(2 ^ 63) ≤ x) (h2 : x < 2 ^ 63) :
    wrapInt64 x = x := by
  unfold wrapInt64
  rw [Int.emod_eq_of_lt (by omega) (by omega)]
  omega

/-- Within the range where the product fits `int64`, `maxSizeBytes` is the product. -/
theorem maxSizeBytes_exact (cfg : Config) (h1 : 0 ≤ cfg.MaxFileSizeMB)
    (h2 : cfg.MaxFileSizeMB < 2 ^ 43) :
    maxSizeBytes cfg = cfg.MaxFileSizeMB * 1024 * 1024 := by
  unfold maxSizeBytes
  rw [wrapInt64_of_range cfg.MaxFileSizeMB (by omega) (by omega),
    wrapInt64_of_range (cfg.MaxFileSizeMB * 1024) (by omega) (by omega),
    wrapInt64_of_range (cfg.MaxFileSizeMB * 1024 * 1024) (by omega) (by omega)]

theorem admitted_iff (cfg : Config) (w : World) (file : String) :
    admitted cfg w file = true ↔
      ∃ size, (w.fs file).stat = StatResult.ok size ∧ size ≤ maxSizeBytes cfg ∧
        IsUploaded w file = false := by
  unfold admitted
  cases hs : (w.fs file).stat with
  | ok size => simp
  | notExist => simp
  | otherErr => simp

theorem accept_test_eq (cfg : Config) (w : World) (file : String) :
    (isValidFile cfg w file && !IsUploaded w file) = admitted cfg w file := by
  unfold isValidFile admitted
  cases hs : (w.fs file).stat with
  | ok size =>
    by_cases h : size > maxSizeBytes cfg
    · simp [h, not_le.mpr h]
    · simp [h, not_lt.mp h]
  | notExist => simp
  | otherErr => simp

theorem addToQueue_eq (cfg : Config) (files : List String) (w : World) :
    addToQueue cfg w files
      = { w with queue := w.queue ++ files.filter (admitted cfg w) } := by
  induction files generalizing w with
  | nil => simp [addToQueue]
  | cons f rest ih =>
    have step : addToQueue cfg w (f :: rest)
        = addToQueue cfg (if isValidFile cfg w f && !IsUploaded w f then
            { w with queue := w.queue ++ [f] } else w) rest := by
      simp [addToQueue, List.foldl_cons]
    rw [step, accept_test_eq]
    cases ha : admitted cfg w f
    · simp only [Bool.false_eq_true, if_false]
      rw [ih, List.filter_cons_of_neg (by simp [ha])]
    · simp only [if_true]
      rw [ih, List.filter_cons_of_pos (by simp [ha])]
      have hadm : admitted cfg { w with queue := w.queue ++ [f] } = admitted cfg w := rfl
      rw [hadm]
      simp

/-- Without locks: `addToQueue` appends the admitted candidates in order and changes
nothing else. -/
theorem seq_addToQueue_spec (cfg : Config) (w : World) (files : List String) :
    (addToQueue cfg w files).queue = w.queue ++ files.filter (admitted cfg w) ∧
    (∀ file, admitted cfg w file = true ↔
      ∃ size, (w.fs file).stat = StatResult.ok size ∧ size ≤ maxSizeBytes cfg ∧
        IsUploaded w file = false) ∧
    (∀ file size, (w.fs file).stat = StatResult.ok size → size = maxSizeBytes cfg →
      IsUploaded w file = false → admitted cfg w file = true) ∧
    (∀ file size, (w.fs file).stat = StatResult.ok size → maxSizeBytes cfg < size →
      file ∉ (addToQueue cfg w files).queue.drop w.queue.length) ∧
    (addToQueue cfg w files).records = w.records ∧
    (addToQueue cfg w files).fs = w.fs := by
  rw [addToQueue_eq]
  refine ⟨rfl, admitted_iff cfg w, ?_, ?_, rfl, rfl⟩
  · intro file size hs hsz hu
    exact (admitted_iff cfg w file).mpr ⟨size, hs, le_of_eq hsz, hu⟩
  · intro file size hs hgt hmem
    simp only [List.drop_left] at hmem
    have hadm := (List.mem_filter.mp hmem).2
    obtain ⟨size2, hs2, hle, _⟩ := (admitted_iff cfg w file).mp hadm
    rw [hs] at hs2
    cases hs2
    omega

/-- Without locks: the value of `IsUploaded` in terms of the stat result, the hash
and the record under the path. -/
theorem seq_IsUploaded_iff (w : World) (p : String) :
    (IsUploaded w p = true ↔
      ∃ size hash record, (w.fs p).stat = StatResult.ok size ∧
        calculateFileHash w p = some hash ∧ mapGet w.records p = some record ∧
        record.FileHash = hash ∧ record.FileSize = size) ∧
    ((∀ size, (w.fs p).stat ≠ StatResult.ok size) → IsUploaded w p = false) ∧
    (calculateFileHash w p = none → IsUploaded w p = false) ∧
    (mapGet w.records p = none → IsUploaded w p = false) ∧
    (∀ size hash record, (w.fs p).stat = StatResult.ok size →
      calculateFileHash w p = some hash → mapGet w.records p = some record →
      (record.FileHash ≠ hash ∨ record.FileSize ≠ size) → IsUploaded w p = false) := by
  unfold IsUploaded
  cases hs : (w.fs p).stat with
  | ok size =>
    cases hh : calculateFileHash w p with
    | none => simp
    | some hash =>
      cases hr : mapGet w.records p with
      | none => simp
      | some record =>
        simp only [Bool.and_eq_true, decide_eq_true_eq]
        refine ⟨?_, ?_, ?_, ?_, ?_⟩
        · constructor
          · rintro ⟨h1, h2⟩
            exact ⟨size, hash, record, rfl, rfl, rfl, h1, h2⟩
          · rintro ⟨size2, hash2, record2, e1, e2, e3, h1, h2⟩
            cases e1; cases e2; cases e3
            exact ⟨h1, h2⟩
        · intro h; exact absurd rfl (h size)
        · intro h; cases h
        · intro h; cases h
        · intro size2 hash2 record2 e1 e2 e3 hne
          cases e1; cases e2; cases e3
          rcases hne with h | h
          · simp [h]
          · simp [h]
  | notExist => simp
  | otherErr => simp


/-! ## The history map -/

theorem mapGet_append (m1 m2 : Records) (k : String) :
    mapGet (m1 ++ m2) k = (mapGet m1 k).orElse (fun _ => mapGet m2 k) := by
  induction m1 with
  | nil => simp [mapGet]
  | cons e rest ih =>
    by_cases h : e.1 = k
    · simp [mapGet, h]
    · simp [mapGet, h, ih]

theorem mapDelete_eq_filter (m : Records) (k : String) :
    mapDelete m k = m.filter (fun e => decide (e.1 ≠ k)) := by
  induction m with
  | nil => rfl
  | cons e rest ih =>
    by_cases h : e.1 = k
    · simp [mapDelete, h, ih]
    · simp [mapDelete, h, ih]

theorem mapGet_mapDelete_self (m : Records) (k : String) : mapGet (mapDelete m k) k = none := by
  induction m with
  | nil => simp [mapDelete, mapGet]
  | cons e rest ih =>
    by_cases h : e.1 = k
    · simp [mapDelete, h, ih]
    · simp [mapDelete, h, mapGet, ih]

theorem mapGet_mapDelete_ne (m : Records) (k q : String) (hq : q ≠ k) :
    mapGet (mapDelete m k) q = mapGet m q := by
  induction m with
  | nil => simp [mapDelete, mapGet]
  | cons e rest ih =>
    have hkq : ¬ k = q := fun h2 => hq h2.symm
    by_cases h : e.1 = k
    · simp [mapDelete, h, mapGet, hkq, ih]
    · by_cases h2 : e.1 = q
      · rw [mapDelete, if_neg h, mapGet, if_pos h2, mapGet, if_pos h2]
      · simp [mapDelete, h, mapGet, h2, ih]

theorem mapGet_mapSet_self (m : Records) (k : String) (v : UploadRecord) :
    mapGet (mapSet m k v) k = some v := by
  simp [mapSet, mapGet_append, mapGet_mapDelete_self, mapGet]

theorem mapGet_mapSet_ne (m : Records) (k q : String) (v : UploadRecord) (hq : q ≠ k) :
    mapGet (mapSet m k v) q = mapGet m q := by
  have hne : ¬ k = q := fun h => hq h.symm
  rw [mapSet, mapGet_append, mapGet_mapDelete_ne m k q hq]
  cases mapGet m q <;> simp [mapGet, hne]

theorem mapSet_entries_self (m : Records) (k : String) (v : UploadRecord) :
    (mapSet m k v).filter (fun e => decide (e.1 = k)) = [(k, v)] := by
  simp [mapSet, mapDelete_eq_filter, List.filter_append, List.filter_filter]

theorem mapSet_entries_ne (m : Records) (k : String) (v : UploadRecord) :
    (mapSet m k v).filter (fun e => decide (e.1 ≠ k)) = m.filter (fun e => decide (e.1 ≠ k)) := by
  simp [mapSet, mapDelete_eq_filter, List.filter_append, List.filter_filter]

theorem MarkUploaded_ok (w : World) (p r : String) (size : Int) (hash : String)
    (hs : (w.fs p).stat = StatResult.ok size) (hh : calculateFileHash w p = some hash) :
    MarkUploaded w p r
      = save { w with records := mapSet w.records p ⟨p, hash, size, w.now, r⟩ } := by
  unfold MarkUploaded
  rw [hs]
  simp only
  rw [hh]

theorem MarkUploaded_records_ok (w : World) (p r : String) (size : Int) (hash : String)
    (hs : (w.fs p).stat = StatResult.ok size) (hh : calculateFileHash w p = some hash) :
    (MarkUploaded w p r).1.records = mapSet w.records p
      (⟨p, hash, size, w.now, r⟩ : UploadRecord) := by
  rw [MarkUploaded_ok w p r size hash hs hh, save_records]

theorem MarkUploaded_fail (w : World) (p r : String)
    (h : (∀ size, (w.fs p).stat ≠ StatResult.ok size) ∨ calculateFileHash w p = none) :
    (MarkUploaded w p r).2 ≠ none ∧ (MarkUploaded w p r).1 = w := by
  unfold MarkUploaded
  cases hs : (w.fs p).stat with
  | ok size =>
    rcases h with h | h
    · exact absurd hs (h size)
    · simp only
      rw [h]
      simp
  | notExist => simp
  | otherErr => simp

theorem IsUploaded_of_match (w : World) (p : String) (size : Int) (hash : String)
    (record : UploadRecord)
    (hs : (w.fs p).stat = StatResult.ok size) (hh : (w.fs p).hash = some hash)
    (hr : mapGet w.records p = some record)
    (h1 : record.FileHash = hash) (h2 : record.FileSize = size) :
    IsUploaded w p = true := by
  unfold IsUploaded calculateFileHash
  rw [hs]
  simp only
  rw [hh]
  simp only
  rw [hr]
  simp [h1, h2]

/-- Without locks: the records after `MarkUploaded`, and its failure cases. -/
theorem seq_MarkUploaded_spec (w : World) (p r : String) :
    (∀ size hash, (w.fs p).stat = StatResult.ok size → calculateFileHash w p = some hash →
      mapGet (MarkUploaded w p r).1.records p
        = some (⟨p, hash, size, w.now, r⟩ : UploadRecord) ∧
      (MarkUploaded w p r).1.records.filter (fun e => decide (e.1 = p))
        = [(p, (⟨p, hash, size, w.now, r⟩ : UploadRecord))] ∧
      (MarkUploaded w p r).1.records.filter (fun e => decide (e.1 ≠ p))
        = w.records.filter (fun e => decide (e.1 ≠ p)) ∧
      (∀ q, q ≠ p → mapGet (MarkUploaded w p r).1.records q = mapGet w.records q) ∧
      IsUploaded (MarkUploaded w p r).1 p = true ∧
      (∀ w2 : World, w2.fs p = w.fs p →
        mapGet w2.records p = mapGet (MarkUploaded w p r).1.records p →
        IsUploaded w2 p = true)) ∧
    (((∀ size, (w.fs p).stat ≠ StatResult.ok size) ∨ calculateFileHash w p = none) →
      (MarkUploaded w p r).2 ≠ none ∧ (MarkUploaded w p r).1 = w) := by
  refine ⟨?_, MarkUploaded_fail w p r⟩
  intro size hash hs hh
  have hrec := MarkUploaded_records_ok w p r size hash hs hh
  have hget : mapGet (MarkUploaded w p r).1.records p
      = some (⟨p, hash, size, w.now, r⟩ : UploadRecord) := by
    rw [hrec, mapGet_mapSet_self]
  refine ⟨hget, ?_, ?_, ?_, ?_, ?_⟩
  · rw [hrec, mapSet_entries_self]
  · rw [hrec, mapSet_entries_ne]
  · intro q hq
    rw [hrec, mapGet_mapSet_ne _ _ _ _ hq]
  · refine IsUploaded_of_match _ p size hash _ ?_ ?_ hget rfl rfl
    · rw [MarkUploaded_fs]; exact hs
    · rw [MarkUploaded_fs]; exact hh
  · intro w2 hfs hrec2
    refine IsUploaded_of_match w2 p size hash _ ?_ ?_ (hrec2.trans hget) rfl rfl
    · rw [hfs]; exact hs
    · rw [hfs]; exact hh


/-! ## Success handling -/

theorem handleSuccessfulUpload_records_ok (cfg : Config) (w : World) (f : String)
    (size : Int) (hash : String)
    (hs : (w.fs f).stat = StatResult.ok size) (hh : calculateFileHash w f = some hash) :
    (handleSuccessfulUpload cfg w f).records
      = mapSet w.records f ⟨f, hash, size, w.now, ""⟩ := by
  unfold handleSuccessfulUpload
  simp only [DeleteFile_records]
  exact MarkUploaded_records_ok { w with trace := w.trace ++ [Event.MarkUploaded f ""] }
    f "" size hash hs hh

theorem take_batch_singleton (b : Nat) (f : String) (hb : 1 ≤ b) :
    [f].take (min b [f].length) = [f] := by
  have : min b [f].length = 1 := by simp; omega
  rw [this]; rfl

/-- Without locks: a failed tick followed by a successful one on a queue of one
readable file and an empty history. -/
theorem seq_retry_then_success (cfg : Config) (deliver1 deliver2 : Call → Bool) (w : World)
    (f : String) (size : Int) (hash : String)
    (hb : 1 ≤ cfg.BatchSize) (hq : w.queue = [f]) (hr : w.records = [])
    (hs : (w.fs f).stat = StatResult.ok size) (hh : calculateFileHash w f = some hash)
    (h1 : deliver1 (Call.UploadImage f) = false)
    (h2 : deliver2 (Call.UploadImage f) = true) :
    (uploadBatch cfg deliver1 w).queue = [f] ∧
    (uploadBatch cfg deliver1 w).records = [] ∧
    (uploadBatch cfg deliver2 (uploadBatch cfg deliver1 w)).queue = [] ∧
    (uploadBatch cfg deliver2 (uploadBatch cfg deliver1 w)).records
      = [(f, ⟨f, hash, size, w.now, ""⟩)] := by
  have hne : w.queue ≠ [] := by rw [hq]; simp
  have htake : w.queue.take (min cfg.BatchSize w.queue.length) = [f] := by
    rw [hq]; exact take_batch_singleton cfg.BatchSize f hb
  obtain ⟨c, _, hc1, _, h | h⟩ := uploadBatch_cases cfg deliver1 w hne
  · have hw1 := h.2
    -- second tick, from the state the first tick left
    have hq1 : (uploadBatch cfg deliver1 w).queue = [f] := by rw [hw1]; exact hq
    have hr1 : (uploadBatch cfg deliver1 w).records = [] := by rw [hw1]; exact hr
    have hne1 : (uploadBatch cfg deliver1 w).queue ≠ [] := by rw [hq1]; simp
    have htake1 : (uploadBatch cfg deliver1 w).queue.take
        (min cfg.BatchSize (uploadBatch cfg deliver1 w).queue.length) = [f] := by
      rw [hq1]; exact take_batch_singleton cfg.BatchSize f hb
    have hdrop1 : (uploadBatch cfg deliver1 w).queue.drop
        (min cfg.BatchSize (uploadBatch cfg deliver1 w).queue.length) = [] := by
      rw [hq1]
      have : min cfg.BatchSize [f].length = 1 := by simp; omega
      rw [this]; rfl
    obtain ⟨d, _, hd1, _, g | g⟩ := uploadBatch_cases cfg deliver2 _ hne1
    · have hd := hd1 f htake1
      rw [hd, h2] at g
      exact absurd g.1 (by decide)
    · have hd := hd1 f htake1
      have hw2 := g.2
      rw [hd] at hw2
      simp only [Call.paths, List.foldl_cons, List.foldl_nil] at hw2
      have hrec2 : (uploadBatch cfg deliver2 (uploadBatch cfg deliver1 w)).records
          = [(f, ⟨f, hash, size, w.now, ""⟩)] := by
        rw [hw2, handleSuccessfulUpload_records_ok cfg _ f size hash
          (by rw [hw1]; exact hs) (by rw [hw1]; exact hh)]
        simp only [hr1]
        rw [hw1]
        rfl
      have hq2 : (uploadBatch cfg deliver2 (uploadBatch cfg deliver1 w)).queue = [] := by
        rw [hw2, handleSuccessfulUpload_queue]
        exact hdrop1
      exact ⟨hq1, hr1, hq2, hrec2⟩
  · have hc := hc1 f htake
    rw [hc, h1] at h
    exact absurd h.1 (by decide)

/-- Without locks: the calls made by a successful tick, on the multi-file path and on
the single-file path. -/
theorem seq_uploadBatch_multi (cfg : Config) (deliver : Call → Bool) (w : World) :
    (2 ≤ w.queue.length → w.queue.length ≤ cfg.BatchSize →
      deliver (Call.UploadImages w.queue) = true →
      (uploadBatch cfg deliver w).trace
        = w.trace ++ Event.deliver (Call.UploadImages w.queue)
            :: w.queue.flatMap (fun f => [Event.MarkUploaded f "", Event.DeleteFile f]) ∧
      deliveries (uploadBatch cfg deliver w) = deliveries w ++ [Call.UploadImages w.queue] ∧
      (uploadBatch cfg deliver w).queue = []) ∧
    (∀ f, w.queue.take (min cfg.BatchSize w.queue.length) = [f] →
      deliver (Call.UploadImage f) = true →
      (uploadBatch cfg deliver w).trace
        = w.trace ++ [Event.deliver (Call.UploadImage f), Event.MarkUploaded f "",
            Event.DeleteFile f] ∧
      deliveries (uploadBatch cfg deliver w) = deliveries w ++ [Call.UploadImage f] ∧
      (uploadBatch cfg deliver w).queue = w.queue.drop 1) := by
  constructor
  · intro h2 hb hok
    have hne : w.queue ≠ [] := by
      intro h; rw [h] at h2; simp at h2
    have hmin : min cfg.BatchSize w.queue.length = w.queue.length := by omega
    have htake : w.queue.take (min cfg.BatchSize w.queue.length) = w.queue := by
      rw [hmin, List.take_length]
    have hdrop : w.queue.drop (min cfg.BatchSize w.queue.length) = [] := by
      rw [hmin, List.drop_length]
    obtain ⟨c, _, _, hc2, h | h⟩ := uploadBatch_cases cfg deliver w hne
    · have hc := hc2 (by
        intro f hf
        rw [htake] at hf
        rw [hf] at h2
        simp at h2)
      rw [htake] at hc
      rw [hc, hok] at h
      exact absurd h.1 (by decide)
    · have hc := hc2 (by
        intro f hf
        rw [htake] at hf
        rw [hf] at h2
        simp at h2)
      rw [htake] at hc
      have hw := h.2
      rw [hc, hdrop] at hw
      simp only [Call.paths] at hw
      have htr : (uploadBatch cfg deliver w).trace
          = w.trace ++ Event.deliver (Call.UploadImages w.queue)
            :: w.queue.flatMap (fun f => [Event.MarkUploaded f "", Event.DeleteFile f]) := by
        rw [hw, foldl_handle_trace]
        simp
      refine ⟨htr, ?_, ?_⟩
      · refine deliveries_snoc_deliver w (Call.UploadImages w.queue)
          (w.queue.flatMap (fun f => [Event.MarkUploaded f "", Event.DeleteFile f])) ?_ _ ?_
        · intro e he d
          rw [List.mem_flatMap] at he
          obtain ⟨f, _, hf⟩ := he
          simp at hf
          rcases hf with rfl | rfl <;> simp
        · rw [htr]; simp
      · rw [hw, foldl_handle_queue]
  · intro f htake hok
    have hne : w.queue ≠ [] := by
      intro h; rw [h] at htake; simp at htake
    have hdrop : w.queue.drop (min cfg.BatchSize w.queue.length) = w.queue.drop 1 := by
      have hl := congrArg List.length htake
      simp only [List.length_take, List.length_singleton] at hl
      have hm : min cfg.BatchSize w.queue.length = 1 := by omega
      rw [hm]
    obtain ⟨c, _, hc1, _, h | h⟩ := uploadBatch_cases cfg deliver w hne
    · rw [hc1 f htake, hok] at h
      exact absurd h.1 (by decide)
    · have hw := h.2
      rw [hc1 f htake, hdrop] at hw
      simp only [Call.paths, List.foldl_cons, List.foldl_nil] at hw
      have htr : (uploadBatch cfg deliver w).trace
          = w.trace ++ [Event.deliver (Call.UploadImage f), Event.MarkUploaded f "",
              Event.DeleteFile f] := by
        rw [hw, handleSuccessfulUpload_trace]
        simp
      refine ⟨htr, ?_, ?_⟩
      · refine deliveries_snoc_deliver w (Call.UploadImage f)
          [Event.MarkUploaded f "", Event.DeleteFile f] ?_ _ ?_
        · intro e he d
          simp at he
          rcases he with rfl | rfl <;> simp
        · rw [htr]; simp
      · rw [hw, handleSuccessfulUpload_queue]


/-! ## Shutdown flush -/

/-- Without locks: with a delivery that succeeds, the shutdown flush removes one
batch from the queue and no more. -/
theorem seq_flush_queue (cfg : Config) (deliver : Call → Bool) (w : World)
    (hok : ∀ c, deliver c = true) :
    (processRemainingQueue cfg deliver w).queue
      = w.queue.drop (min cfg.BatchSize w.queue.length) := by
  unfold processRemainingQueue
  by_cases hq : w.queue = []
  · simp [hq]
  · have hpos : w.queue.length > 0 := List.length_pos.mpr hq
    simp only [hpos, if_true]
    obtain ⟨c, _, _, _, h | h⟩ := uploadBatch_cases cfg deliver w hq
    · rw [hok c] at h
      exact absurd h.1 (by decide)
    · rw [h.2, foldl_handle_queue]

/-! ## Cleanup of missing files -/

theorem foldl_mapDelete (ks : List String) (m : Records) :
    ks.foldl mapDelete m = m.filter (fun e => decide (e.1 ∉ ks)) := by
  induction ks generalizing m with
  | nil => simp
  | cons k rest ih =>
    rw [List.foldl_cons, ih, mapDelete_eq_filter, List.filter_filter]
    apply List.filter_congr
    intro e _
    simp only [List.mem_cons, not_or]
    by_cases h1 : e.1 = k <;> by_cases h2 : e.1 ∈ rest <;> simp [h1, h2]

theorem cleanup_records (w : World) :
    ((w.records.map Prod.fst).filter
        (fun filePath => decide ((w.fs filePath).stat = StatResult.notExist))).foldl
        mapDelete w.records
      = w.records.filter (fun e => decide ((w.fs e.1).stat ≠ StatResult.notExist)) := by
  rw [foldl_mapDelete]
  apply List.filter_congr
  intro e he
  have hmem : e.1 ∈ w.records.map Prod.fst := List.mem_map.mpr ⟨e, he, rfl⟩
  by_cases h : (w.fs e.1).stat = StatResult.notExist
  · simp [List.mem_filter, h, hmem]
  · simp [List.mem_filter, h]

theorem cleanup_toRemove_pos (w : World) :
    ((w.records.map Prod.fst).filter
        (fun filePath => decide ((w.fs filePath).stat = StatResult.notExist))).length > 0
      ↔ ∃ e ∈ w.records, (w.fs e.1).stat = StatResult.notExist := by
  rw [gt_iff_lt, List.length_pos_iff_exists_mem]
  constructor
  · rintro ⟨k, hk⟩
    rw [List.mem_filter, List.mem_map] at hk
    obtain ⟨⟨e, he, rfl⟩, hst⟩ := hk
    exact ⟨e, he, by simpa using hst⟩
  · rintro ⟨e, he, hst⟩
    exact ⟨e.1, List.mem_filter.mpr ⟨List.mem_map.mpr ⟨e, he, rfl⟩, by simpa using hst⟩⟩

theorem mapGet_filter (m : Records) (keep : String → Bool) (p : String) :
    mapGet (m.filter (fun e => keep e.1)) p = if keep p then mapGet m p else none := by
  induction m with
  | nil => simp [mapGet]
  | cons e rest ih =>
    by_cases hk : keep e.1 = true
    · rw [List.filter_cons_of_pos (by simpa using hk)]
      by_cases hp : e.1 = p
      · rw [mapGet, if_pos hp, mapGet, if_pos hp, ← hp, if_pos hk]
      · rw [mapGet, if_neg hp, mapGet, if_neg hp, ih]
    · rw [List.filter_cons_of_neg (by simpa using hk), ih]
      by_cases hp : e.1 = p
      · rw [← hp, if_neg hk, if_neg hk]
      · rw [mapGet, if_neg hp]

/-! ## Queue and history -/

theorem IsUploaded_congr (w w2 : World) (p : String) (hfs : w2.fs p = w.fs p)
    (hrec : mapGet w2.records p = mapGet w.records p) :
    IsUploaded w2 p = IsUploaded w p := by
  unfold IsUploaded calculateFileHash
  rw [hfs, hrec]

theorem MarkUploaded_mapGet_ne (w : World) (f r p : String) (hp : p ≠ f) :
    mapGet (MarkUploaded w f r).1.records p = mapGet w.records p := by
  cases hs : (w.fs f).stat with
  | ok size =>
    cases hh : calculateFileHash w f with
    | some hash =>
      rw [MarkUploaded_records_ok w f r size hash hs hh, mapGet_mapSet_ne _ _ _ _ hp]
    | none => rw [(MarkUploaded_fail w f r (Or.inr hh)).2]
  | notExist =>
    rw [(MarkUploaded_fail w f r (Or.inl (by intro size h; rw [hs] at h; cases h))).2]
  | otherErr =>
    rw [(MarkUploaded_fail w f r (Or.inl (by intro size h; rw [hs] at h; cases h))).2]

theorem DeleteFile_fs_ne (cfg : Config) (w : World) (f p : String) (hp : p ≠ f) :
    (DeleteFile cfg w f).1.fs p = w.fs p := by
  unfold DeleteFile
  split
  · rfl
  · split
    · simp [hp]
    · rfl

theorem handleSuccessfulUpload_IsUploaded_ne (cfg : Config) (w : World) (f p : String)
    (hp : p ≠ f) : IsUploaded (handleSuccessfulUpload cfg w f) p = IsUploaded w p := by
  apply IsUploaded_congr
  · unfold handleSuccessfulUpload
    simp only
    rw [DeleteFile_fs_ne _ _ _ _ hp]
    simp only [MarkUploaded_fs]
  · unfold handleSuccessfulUpload
    simp only [DeleteFile_records]
    exact MarkUploaded_mapGet_ne _ f "" p hp

theorem foldl_handle_IsUploaded (cfg : Config) (fs : List String) (w : World) (p : String)
    (hp : p ∉ fs) : IsUploaded (fs.foldl (handleSuccessfulUpload cfg) w) p = IsUploaded w p := by
  induction fs generalizing w with
  | nil => rfl
  | cons f rest ih =>
    rw [List.foldl_cons, ih _ (fun h => hp (List.mem_cons_of_mem f h)),
      handleSuccessfulUpload_IsUploaded_ne cfg w f p (fun h => hp (by rw [h]; simp))]

theorem uploadBatch_preserves_inv (cfg : Config) (deliver : Call → Bool) (w : World)
    (hnd : w.queue.Nodup) (hinv : ∀ p ∈ w.queue, IsUploaded w p = false) :
    (uploadBatch cfg deliver w).queue.Nodup ∧
      ∀ p ∈ (uploadBatch cfg deliver w).queue, IsUploaded (uploadBatch cfg deliver w) p = false := by
  by_cases hq : w.queue = []
  · rw [uploadBatch_empty cfg deliver w hq]
    exact ⟨hnd, hinv⟩
  · obtain ⟨c, hc, _, _, h | h⟩ := uploadBatch_cases cfg deliver w hq
    · rw [h.2]
      exact ⟨hnd, hinv⟩
    · rw [h.2, hc]
      have hsplit : w.queue.take (min cfg.BatchSize w.queue.length)
          ++ w.queue.drop (min cfg.BatchSize w.queue.length) = w.queue :=
        List.take_append_drop _ _
      have hnd2 := hnd
      rw [← hsplit, List.nodup_append] at hnd2
      obtain ⟨_, hdropnd, hdisj⟩ := hnd2
      constructor
      · rw [foldl_handle_queue]
        exact hdropnd
      · intro p hp
        rw [foldl_handle_queue] at hp
        have hpd : p ∈ w.queue.drop (min cfg.BatchSize w.queue.length) := hp
        have hnot : p ∉ w.queue.take (min cfg.BatchSize w.queue.length) :=
          fun hin => hdisj hin hpd
        rw [foldl_handle_IsUploaded cfg _ _ p hnot]
        exact hinv p (List.mem_of_mem_drop hpd)


/-! ## The functions with their locks, called with both mutexes free -/

theorem returns_bind {α β : Type} (a : α) (f : α → Run β) :
    (Run.returns a >>= f) = f a := rfl

theorem blocked_bind {α β : Type} (w : World) (f : α → Run β) :
    ((Run.blocked w : Run α) >>= f) = Run.blocked w := rfl

theorem pure_eq_returns {α : Type} (a : α) : (pure a : Run α) = Run.returns a := rfl

theorem IsUploaded_returns (l : Locks) (w : World) (p : String)
    (h : l.mutex = RWMutex.unlocked) :
    History.IsUploaded l w p = Run.returns (Seq.IsUploaded w p) := by
  unfold History.IsUploaded
  rw [h]
  rfl

theorem save_returns (l : Locks) (w : World) (h : l.mutex = RWMutex.unlocked) :
    History.save l w = Run.returns (Seq.save w) := by
  unfold History.save Seq.save
  rw [h]
  cases hd : w.dirOk <;> cases hw : w.writable <;>
    simp [hd, hw, RWMutex.RLock, RWMutex.RUnlock, Run.ofLock, returns_bind, pure_eq_returns]

theorem panics_bind {α β : Type} (w : World) (f : α → Run β) :
    ((Run.panics w : Run α) >>= f) = Run.panics w := rfl

theorem save_nilMap (w : World) : (Seq.save w).1.nilMap = w.nilMap := by
  cases hd : w.dirOk <;> cases hw : w.writable <;> simp [Seq.save, hd, hw]

theorem MarkUploaded_nilMap (w : World) (f r : String) :
    (Seq.MarkUploaded w f r).1.nilMap = w.nilMap := by
  unfold Seq.MarkUploaded
  split
  · split
    · rw [save_nilMap]
    · rfl
  · rfl

theorem DeleteFile_nilMap (cfg : Config) (w : World) (f : String) :
    (DeleteFile cfg w f).1.nilMap = w.nilMap := by
  unfold DeleteFile
  split
  · rfl
  · split <;> rfl

theorem handleSuccessfulUpload_nilMap (cfg : Config) (w : World) (f : String) :
    (Seq.handleSuccessfulUpload cfg w f).nilMap = w.nilMap := by
  simp [Seq.handleSuccessfulUpload, DeleteFile_nilMap, MarkUploaded_nilMap]

theorem MarkUploaded_returns (l : Locks) (w : World) (p r : String)
    (h : l.mutex = RWMutex.unlocked) (hn : w.nilMap = false) :
    History.MarkUploaded l w p r = Run.returns (Seq.MarkUploaded w p r) := by
  unfold History.MarkUploaded Seq.MarkUploaded
  cases hs : (w.fs p).stat with
  | ok size =>
    cases hh : calculateFileHash w p with
    | some hash =>
      simp only [h, hn, RWMutex.Lock, RWMutex.Unlock, Run.ofLock, returns_bind,
        Bool.false_eq_true, if_false]
      exact save_returns _ _ rfl
    | none => rfl
  | notExist => rfl
  | otherErr => rfl

/-- On the nil map `MarkUploaded` panics at the assignment, once the stat and the
hash have succeeded. -/
theorem MarkUploaded_panics (l : Locks) (w : World) (p r : String) (size : Int)
    (hash : String) (h : l.mutex = RWMutex.unlocked) (hn : w.nilMap = true)
    (hs : (w.fs p).stat = StatResult.ok size) (hh : calculateFileHash w p = some hash) :
    History.MarkUploaded l w p r = Run.panics w := by
  unfold History.MarkUploaded
  rw [hs]
  simp only
  rw [hh]
  simp only [h, hn, RWMutex.Lock, Run.ofLock, returns_bind, if_true]

/-- `MarkUploaded` returns its effect, or panics with the state untouched. -/
theorem MarkUploaded_outcome (l : Locks) (w : World) (p r : String)
    (h : l.mutex = RWMutex.unlocked) :
    History.MarkUploaded l w p r = Run.returns (Seq.MarkUploaded w p r) ∨
      History.MarkUploaded l w p r = Run.panics w := by
  cases hn : w.nilMap
  · exact Or.inl (MarkUploaded_returns l w p r h hn)
  · cases hs : (w.fs p).stat with
    | ok size =>
      cases hh : calculateFileHash w p with
      | some hash => exact Or.inr (MarkUploaded_panics l w p r size hash h hn hs hh)
      | none =>
        left
        unfold History.MarkUploaded Seq.MarkUploaded
        rw [hs]
        simp only
        rw [hh]
        rfl
    | notExist =>
      left
      unfold History.MarkUploaded Seq.MarkUploaded
      rw [hs]
      rfl
    | otherErr =>
      left
      unfold History.MarkUploaded Seq.MarkUploaded
      rw [hs]
      rfl

theorem handleSuccessfulUpload_returns (cfg : Config) (l : Locks) (w : World) (f : String)
    (h : l.mutex = RWMutex.unlocked) (hn : w.nilMap = false) :
    Uploader.handleSuccessfulUpload cfg l w f
      = Run.returns (Seq.handleSuccessfulUpload cfg w f) := by
  have hm := MarkUploaded_returns l { w with trace := w.trace ++ [Event.MarkUploaded f ""] }
    f "" h hn
  unfold Uploader.handleSuccessfulUpload Seq.handleSuccessfulUpload
  simp only [hm, returns_bind, pure_eq_returns]

/-- `handleSuccessfulUpload` returns its effect, or panics in a state with the
queue and the delivery calls it started from. -/
theorem handleSuccessfulUpload_outcome (cfg : Config) (l : Locks) (w : World) (f : String)
    (h : l.mutex = RWMutex.unlocked) :
    Uploader.handleSuccessfulUpload cfg l w f
        = Run.returns (Seq.handleSuccessfulUpload cfg w f) ∨
      ∃ w2, Uploader.handleSuccessfulUpload cfg l w f = Run.panics w2 ∧
        w2.queue = w.queue ∧ deliveries w2 = deliveries w := by
  unfold Uploader.handleSuccessfulUpload Seq.handleSuccessfulUpload
  rcases MarkUploaded_outcome l
    { w with trace := w.trace ++ [Event.MarkUploaded f ""] } f "" h with hr | hp
  · left
    simp only [hr, returns_bind, pure_eq_returns]
  · right
    refine ⟨{ w with trace := w.trace ++ [Event.MarkUploaded f ""] }, ?_, rfl, ?_⟩
    · simp only [hp, panics_bind]
    · simp [deliveries, List.filterMap_append]

theorem foldl_handle_nilMap (cfg : Config) (fs : List String) (w : World) :
    (fs.foldl (Seq.handleSuccessfulUpload cfg) w).nilMap = w.nilMap := by
  induction fs generalizing w with
  | nil => rfl
  | cons f rest ih => rw [List.foldl_cons, ih, handleSuccessfulUpload_nilMap]

theorem foldlM_handle_returns (cfg : Config) (l : Locks) (fs : List String) (w : World)
    (h : l.mutex = RWMutex.unlocked) (hn : w.nilMap = false) :
    fs.foldlM (Uploader.handleSuccessfulUpload cfg l) w
      = Run.returns (fs.foldl (Seq.handleSuccessfulUpload cfg) w) := by
  induction fs generalizing w with
  | nil => rfl
  | cons f rest ih =>
    rw [List.foldlM_cons, handleSuccessfulUpload_returns cfg l w f h hn, returns_bind,
      ih _ (by rw [handleSuccessfulUpload_nilMap]; exact hn), List.foldl_cons]

theorem handle_deliveries (cfg : Config) (w : World) (f : String) :
    deliveries (Seq.handleSuccessfulUpload cfg w f) = deliveries w := by
  unfold deliveries
  rw [handleSuccessfulUpload_trace]
  simp [List.filterMap_append]

theorem foldl_handle_deliveries (cfg : Config) (fs : List String) (w : World) :
    deliveries (fs.foldl (Seq.handleSuccessfulUpload cfg) w) = deliveries w := by
  induction fs generalizing w with
  | nil => rfl
  | cons f rest ih => rw [List.foldl_cons, ih, handle_deliveries]

/-- Handling a batch ends, by return or by panic, in a state with the queue and
the delivery calls it started from. -/
theorem foldlM_handle_endState (cfg : Config) (l : Locks) (fs : List String) (w : World)
    (h : l.mutex = RWMutex.unlocked) :
    ∃ w2, (fs.foldlM (Uploader.handleSuccessfulUpload cfg l) w = Run.returns w2 ∨
        fs.foldlM (Uploader.handleSuccessfulUpload cfg l) w = Run.panics w2) ∧
      w2.queue = w.queue ∧ deliveries w2 = deliveries w := by
  induction fs generalizing w with
  | nil => exact ⟨w, Or.inl rfl, rfl, rfl⟩
  | cons f rest ih =>
    rw [List.foldlM_cons]
    rcases handleSuccessfulUpload_outcome cfg l w f h with hr | ⟨w2, hp, hq, hd⟩
    · rw [hr, returns_bind]
      obtain ⟨w2, ho, hq, hd⟩ := ih (Seq.handleSuccessfulUpload cfg w f)
      exact ⟨w2, ho, by rw [hq, handleSuccessfulUpload_queue],
        by rw [hd, handle_deliveries]⟩
    · rw [hp, panics_bind]
      exact ⟨w2, Or.inr rfl, hq, hd⟩

theorem uploadBatch_returns (cfg : Config) (deliver : Call → Bool) (l : Locks) (w : World)
    (h : l.mutex = RWMutex.unlocked) (hq : l.queueMutex = RWMutex.unlocked)
    (hn : w.nilMap = false) :
    Uploader.uploadBatch cfg deliver l w = Run.returns (Seq.uploadBatch cfg deliver w) := by
  unfold Uploader.uploadBatch Seq.uploadBatch
  simp only [hq, RWMutex.Lock, Run.ofLock, returns_bind]
  by_cases hlen : w.queue.length = 0
  · simp only [hlen, if_true, pure_eq_returns, returns_bind, RWMutex.Unlock, Run.ofLock]
  · simp only [hlen, if_false]
    split
    · rename_i file hb
      cases hd : deliver (Call.UploadImage file)
      · simp only [Bool.false_eq_true, if_false, pure_eq_returns, returns_bind,
          RWMutex.Unlock, Run.ofLock]
      · simp only [if_true]
        rw [handleSuccessfulUpload_returns cfg ⟨l.mutex, RWMutex.locked⟩ _ file h]
        · simp only [pure_eq_returns, returns_bind, RWMutex.Unlock, Run.ofLock]
        · exact hn
    · rename_i hb
      generalize hbatch : w.queue.take
        (if cfg.BatchSize > w.queue.length then w.queue.length else cfg.BatchSize) = batch
      cases hd : deliver (Call.UploadImages batch)
      · simp only [Bool.false_eq_true, if_false, pure_eq_returns, returns_bind,
          RWMutex.Unlock, Run.ofLock]
      · simp only [if_true]
        rw [foldlM_handle_returns cfg ⟨l.mutex, RWMutex.locked⟩ _ _ h]
        · simp only [pure_eq_returns, returns_bind, RWMutex.Unlock, Run.ofLock]
        · exact hn

/-- A tick whose delivery call fails, or on an empty queue, returns its effect
whatever the state of the map. -/
theorem uploadBatch_returns_of_failure (cfg : Config) (deliver : Call → Bool) (l : Locks)
    (w : World) (hq : l.queueMutex = RWMutex.unlocked)
    (hfail : ∀ c : Call,
      c.paths = w.queue.take (min cfg.BatchSize w.queue.length) → deliver c = false) :
    Uploader.uploadBatch cfg deliver l w = Run.returns (Seq.uploadBatch cfg deliver w) := by
  unfold Uploader.uploadBatch Seq.uploadBatch
  simp only [hq, RWMutex.Lock, Run.ofLock, returns_bind]
  by_cases hlen : w.queue.length = 0
  · simp only [hlen, if_true, pure_eq_returns, returns_bind, RWMutex.Unlock, Run.ofLock]
  · simp only [hlen, if_false]
    simp only [batchSize_eq_min]
    split
    · rename_i file hb
      have hd : deliver (Call.UploadImage file) = false :=
        hfail _ (by simp [Call.paths, hb])
      simp only [hd, Bool.false_eq_true, if_false, pure_eq_returns, returns_bind,
        RWMutex.Unlock, Run.ofLock]
    · rename_i hb
      have hd : deliver (Call.UploadImages
          (w.queue.take (min cfg.BatchSize w.queue.length))) = false := hfail _ rfl
      simp only [hd, Bool.false_eq_true, if_false, pure_eq_returns, returns_bind,
        RWMutex.Unlock, Run.ofLock]

/-- A tick ends, by return or by panic, in a state with the queue and the
delivery calls of its effect. -/
theorem uploadBatch_endState (cfg : Config) (deliver : Call → Bool) (w : World) :
    (∃ w2, Uploader.uploadBatch cfg deliver Locks.free w = Run.returns w2 ∨
      Uploader.uploadBatch cfg deliver Locks.free w = Run.panics w2) ∧
    (Uploader.uploadBatch cfg deliver Locks.free w).endState.queue
      = (Seq.uploadBatch cfg deliver w).queue ∧
    deliveries (Uploader.uploadBatch cfg deliver Locks.free w).endState
      = deliveries (Seq.uploadBatch cfg deliver w) := by
  unfold Uploader.uploadBatch Seq.uploadBatch
  simp only [Locks.free, RWMutex.Lock, Run.ofLock, returns_bind]
  by_cases hlen : w.queue.length = 0
  · simp only [hlen, if_true, pure_eq_returns, returns_bind, RWMutex.Unlock, Run.ofLock]
    exact ⟨⟨w, Or.inl rfl⟩, rfl, rfl⟩
  · simp only [hlen, if_false]
    split
    · rename_i file hb
      cases hd : deliver (Call.UploadImage file)
      · simp only [Bool.false_eq_true, if_false, pure_eq_returns, returns_bind,
          RWMutex.Unlock, Run.ofLock]
        exact ⟨⟨_, Or.inl rfl⟩, rfl, rfl⟩
      · simp only [if_true]
        rcases handleSuccessfulUpload_outcome cfg ⟨RWMutex.unlocked, RWMutex.locked⟩
          { w with
            queue := w.queue.drop
              (if cfg.BatchSize > w.queue.length then w.queue.length else cfg.BatchSize),
            trace := w.trace ++ [Event.deliver (Call.UploadImage file)] } file rfl
          with hr | ⟨w2, hp, hq2, hd2⟩
        · rw [hr]
          simp only [pure_eq_returns, returns_bind, RWMutex.Unlock, Run.ofLock]
          exact ⟨⟨_, Or.inl rfl⟩, rfl, rfl⟩
        · rw [hp]
          simp only [panics_bind]
          refine ⟨⟨_, Or.inr rfl⟩, ?_, ?_⟩
          · simp only [Run.endState]
            rw [hq2, handleSuccessfulUpload_queue]
          · simp only [Run.endState]
            rw [hd2, handle_deliveries]
    · rename_i hb
      generalize hbatch : w.queue.take
        (if cfg.BatchSize > w.queue.length then w.queue.length else cfg.BatchSize) = batch
      cases hd : deliver (Call.UploadImages batch)
      · simp only [Bool.false_eq_true, if_false, pure_eq_returns, returns_bind,
          RWMutex.Unlock, Run.ofLock]
        exact ⟨⟨_, Or.inl rfl⟩, rfl, rfl⟩
      · simp only [if_true]
        obtain ⟨w2, ho, hq2, hd2⟩ := foldlM_handle_endState cfg
          ⟨RWMutex.unlocked, RWMutex.locked⟩ batch
          { w with
            queue := w.queue.drop
              (if cfg.BatchSize > w.queue.length then w.queue.length else cfg.BatchSize),
            trace := w.trace ++ [Event.deliver (Call.UploadImages batch)] } rfl
        have hfq := foldl_handle_queue cfg batch
          { w with
            queue := w.queue.drop
              (if cfg.BatchSize > w.queue.length then w.queue.length else cfg.BatchSize),
            trace := w.trace ++ [Event.deliver (Call.UploadImages batch)] }
        have hfd : deliveries (batch.foldl (Seq.handleSuccessfulUpload cfg)
            { w with
              queue := w.queue.drop
                (if cfg.BatchSize > w.queue.length then w.queue.length else cfg.BatchSize),
              trace := w.trace ++ [Event.deliver (Call.UploadImages batch)] })
            = deliveries w2 := by
          rw [hd2, foldl_handle_deliveries]
        rcases ho with ho | ho
        · rw [ho]
          simp only [pure_eq_returns, returns_bind, RWMutex.Unlock, Run.ofLock]
          exact ⟨⟨_, Or.inl rfl⟩, by simp only [Run.endState]; rw [hq2, hfq], by
            simp only [Run.endState]; rw [hfd]⟩
        · rw [ho]
          simp only [panics_bind]
          exact ⟨⟨_, Or.inr rfl⟩, by simp only [Run.endState]; rw [hq2, hfq], by
            simp only [Run.endState]; rw [hfd]⟩

theorem processRemainingQueue_returns (cfg : Config) (deliver : Call → Bool) (l : Locks)
    (w : World) (h : l.mutex = RWMutex.unlocked) (hq : l.queueMutex = RWMutex.unlocked)
    (hn : w.nilMap = false) :
    Uploader.processRemainingQueue cfg deliver l w
      = Run.returns (Seq.processRemainingQueue cfg deliver w) := by
  unfold Uploader.processRemainingQueue Seq.processRemainingQueue
  simp only [hq, RWMutex.RLock, RWMutex.RUnlock, Run.ofLock, returns_bind]
  by_cases hpos : w.queue.length > 0
  · simp only [hpos, if_true]
    exact uploadBatch_returns cfg deliver _ w h rfl hn
  · simp only [hpos, if_false, pure_eq_returns]

theorem Stop_returns (cfg : Config) (deliver : Call → Bool) (w : World)
    (hn : w.nilMap = false) :
    Uploader.Stop cfg deliver Locks.free w
      = Run.returns (Seq.processRemainingQueue cfg deliver w) :=
  processRemainingQueue_returns cfg deliver Locks.free w rfl rfl hn

theorem addToQueueLoopBody_returns (cfg : Config) (l : Locks) (u : World) (f : String)
    (h : l.mutex = RWMutex.unlocked) :
    Uploader.addToQueueLoopBody cfg l u f
      = Run.returns (if isValidFile cfg u f && !Seq.IsUploaded u f then
          { u with queue := u.queue ++ [f] } else u) := by
  unfold Uploader.addToQueueLoopBody
  simp only [IsUploaded_returns l _ f h, returns_bind, pure_eq_returns]
  cases hv : isValidFile cfg u f <;> cases hu : Seq.IsUploaded u f <;>
    simp [returns_bind]

theorem addLoop_returns (cfg : Config) (l : Locks) (files : List String) (w : World)
    (h : l.mutex = RWMutex.unlocked) :
    files.foldlM (Uploader.addToQueueLoopBody cfg l) w
      = Run.returns (Seq.addToQueue cfg w files) := by
  induction files generalizing w with
  | nil => rfl
  | cons f rest ih =>
    rw [List.foldlM_cons, addToQueueLoopBody_returns cfg l w f h, returns_bind, ih]
    simp [Seq.addToQueue, List.foldl_cons]

theorem addToQueue_returns (cfg : Config) (l : Locks) (w : World) (files : List String)
    (h : l.mutex = RWMutex.unlocked) (hq : l.queueMutex = RWMutex.unlocked) :
    Uploader.addToQueue cfg l w files = Run.returns (Seq.addToQueue cfg w files) := by
  unfold Uploader.addToQueue
  simp only [hq, RWMutex.Lock, Run.ofLock, returns_bind]
  rw [addLoop_returns cfg ⟨l.mutex, RWMutex.locked⟩ files w h]
  simp only [returns_bind, RWMutex.Unlock, Run.ofLock, pure_eq_returns]

theorem GetQueueLength_returns (w : World) :
    Uploader.GetQueueLength Locks.free w = Run.returns w.queue.length := rfl

theorem GetUploadCount_returns (w : World) :
    History.GetUploadCount Locks.free w = Run.returns w.records.length := rfl

theorem cleanup_none_missing (w : World)
    (hall : ∀ e ∈ w.records, (w.fs e.1).stat ≠ StatResult.notExist) :
    History.CleanupMissingFiles Locks.free w = Run.returns (w, none) := by
  have hnil : (w.records.map Prod.fst).filter
      (fun filePath => decide ((w.fs filePath).stat = StatResult.notExist)) = [] := by
    apply List.eq_nil_of_length_eq_zero
    have hn := (not_congr (cleanup_toRemove_pos w)).mpr (by
      rintro ⟨e, he, hst⟩
      exact hall e he hst)
    omega
  unfold History.CleanupMissingFiles
  simp only [hnil, List.length_nil, gt_iff_lt, lt_self_iff_false, if_false, List.foldl_nil]
  rfl

theorem cleanup_missing_blocks (w : World)
    (hex : ∃ e ∈ w.records, (w.fs e.1).stat = StatResult.notExist) (hd : w.dirOk = true) :
    History.CleanupMissingFiles Locks.free w
      = Run.blocked { w with
          records := w.records.filter
            (fun e => decide ((w.fs e.1).stat ≠ StatResult.notExist)),
          saves := w.saves + 1 } := by
  have hpos := (cleanup_toRemove_pos w).mpr hex
  unfold History.CleanupMissingFiles
  simp only [Locks.free, RWMutex.Lock, Run.ofLock, returns_bind, hpos, if_true,
    cleanup_records]
  unfold History.save
  simp [hd, RWMutex.RLock, Run.ofLock, blocked_bind]

theorem cleanup_missing_dir_fails (w : World)
    (hex : ∃ e ∈ w.records, (w.fs e.1).stat = StatResult.notExist) (hd : w.dirOk = false) :
    History.CleanupMissingFiles Locks.free w
      = Run.returns ({ w with
          records := w.records.filter
            (fun e => decide ((w.fs e.1).stat ≠ StatResult.notExist)),
          saves := w.saves + 1 }, some GoError.saveFailed) := by
  have hpos := (cleanup_toRemove_pos w).mpr hex
  unfold History.CleanupMissingFiles
  simp only [Locks.free, RWMutex.Lock, Run.ofLock, returns_bind, hpos, if_true,
    cleanup_records]
  unfold History.save
  simp [hd, RWMutex.Unlock, Run.ofLock, returns_bind, pure_eq_returns]

/-! ## Claims -/

/-- C1. When the delivery call of a tick fails, `uploadBatch` returns and the
queue after it is the queue before it: the taken batch is back at the front, in
order, followed by the untouched remainder, and the next tick takes the same
batch.  The call that fails is whichever one carries the batch, `UploadImage`
for a batch of one path and `UploadImages` otherwise. -/
theorem uploadBatch_failure_restores_queue (cfg : Config) (deliver : Call → Bool)
    (w : World)
    (hfail : ∀ c : Call,
      c.paths = w.queue.take (min cfg.BatchSize w.queue.length) → deliver c = false) :
    ∃ w2 : World, Uploader.uploadBatch cfg deliver Locks.free w = Run.returns w2 ∧
      w2.queue = w.queue ∧
      w2.queue = w.queue.take (min cfg.BatchSize w.queue.length)
        ++ w.queue.drop (min cfg.BatchSize w.queue.length) ∧
      w2.queue.take (min cfg.BatchSize w2.queue.length)
        = w.queue.take (min cfg.BatchSize w.queue.length) ∧
      w2.records = w.records :=
  ⟨Seq.uploadBatch cfg deliver w,
    uploadBatch_returns_of_failure cfg deliver Locks.free w rfl hfail,
    seq_uploadBatch_failure cfg deliver w hfail⟩

/-- Witness for C1: a failed tick on the queue `a.png`, `b.png`, on the multi-file
path (batch size 5) and on the single-file path (batch size 1). -/
theorem uploadBatch_failure_restores_queue_witness :
    (∀ c : Call, c.paths = worldQueued.queue.take (min cfgFive.BatchSize worldQueued.queue.length) →
      (fun _ => false) c = false) ∧
    (∃ w2 : World,
      Uploader.uploadBatch cfgFive (fun _ => false) Locks.free worldQueued = Run.returns w2 ∧
      w2.queue = ["a.png", "b.png"]) ∧
    (∃ w2 : World,
      Uploader.uploadBatch cfgOne (fun _ => false) Locks.free worldQueued = Run.returns w2 ∧
      w2.queue = ["a.png", "b.png"]) := by
  refine ⟨fun _ _ => rfl, ?_, ?_⟩
  · obtain ⟨w2, h1, h2, _⟩ :=
      uploadBatch_failure_restores_queue cfgFive (fun _ => false) worldQueued (fun _ _ => rfl)
    exact ⟨w2, h1, h2⟩
  · obtain ⟨w2, h1, h2, _⟩ :=
      uploadBatch_failure_restores_queue cfgOne (fun _ => false) worldQueued (fun _ _ => rfl)
    exact ⟨w2, h1, h2⟩

/-- C2. On a non-empty queue `uploadBatch` makes exactly one delivery call; it
carries the first `min b (len q)` paths of the queue in queue order, and when it
succeeds the queue afterwards is the queue with those paths dropped.  This
holds in the state `w2` the call ends in: the state it returns, which it does
whenever the map of the history is not nil, or the state in which
`MarkUploaded` panics on the nil map, after the call and the update of the
queue.  On an empty queue `uploadBatch` returns without a call or a change. -/
theorem uploadBatch_delivers_front_batch (cfg : Config) (deliver : Call → Bool)
    (w : World) :
    (w.queue = [] → Uploader.uploadBatch cfg deliver Locks.free w = Run.returns w) ∧
    (w.queue ≠ [] →
      ∃ (w2 : World) (c : Call),
        (Uploader.uploadBatch cfg deliver Locks.free w = Run.returns w2 ∨
          Uploader.uploadBatch cfg deliver Locks.free w = Run.panics w2) ∧
        (w.nilMap = false →
          Uploader.uploadBatch cfg deliver Locks.free w = Run.returns w2) ∧
        deliveries w2 = deliveries w ++ [c] ∧
        c.paths = w.queue.take (min cfg.BatchSize w.queue.length) ∧
        (deliver c = true → w2.queue = w.queue.drop (min cfg.BatchSize w.queue.length))) := by
  have hseq := seq_uploadBatch_front_batch cfg deliver w
  obtain ⟨⟨w2, ho⟩, hq2, hd2⟩ := uploadBatch_endState cfg deliver w
  constructor
  · intro hq
    have hret := uploadBatch_returns_of_failure cfg (fun _ => false) Locks.free w rfl
      (fun _ _ => rfl)
    have hsame : Uploader.uploadBatch cfg deliver Locks.free w
        = Uploader.uploadBatch cfg (fun _ => false) Locks.free w := by
      unfold Uploader.uploadBatch
      simp [hq]
    rw [hsame, hret, uploadBatch_empty cfg _ w hq]
  · intro hq
    obtain ⟨c, h1, h2, h3⟩ := hseq.2 hq
    have hend : (Uploader.uploadBatch cfg deliver Locks.free w).endState = w2 := by
      rcases ho with ho | ho <;> rw [ho] <;> rfl
    rw [hend] at hq2 hd2
    refine ⟨w2, c, ho, ?_, by rw [hd2, h1], h2, fun hc => by rw [hq2, h3 hc]⟩
    intro hn
    have hret := uploadBatch_returns cfg deliver Locks.free w rfl rfl hn
    rcases ho with ho | ho
    · exact ho
    · rw [hret] at ho
      cases ho

set_option maxRecDepth 8000 in
/-- Witness for C2: a successful tick with batch size 1 on the queue `a.png`,
`b.png`. -/
theorem uploadBatch_delivers_front_batch_witness :
    worldQueued.queue ≠ [] ∧ worldQueued.nilMap = false ∧
    ∃ (w2 : World) (c : Call),
      Uploader.uploadBatch cfgOne (fun _ => true) Locks.free worldQueued = Run.returns w2 ∧
      deliveries w2 = deliveries worldQueued ++ [c] ∧
      c.paths = worldQueued.queue.take (min cfgOne.BatchSize worldQueued.queue.length) ∧
      ((fun _ => true) c = true →
        w2.queue = worldQueued.queue.drop (min cfgOne.BatchSize worldQueued.queue.length)) := by
  refine ⟨by decide, rfl, ?_⟩
  obtain ⟨w2, c, _, h2, h3, h4, h5⟩ :=
    (uploadBatch_delivers_front_batch cfgOne (fun _ => true) worldQueued).2 (by decide)
  exact ⟨w2, c, h2 rfl, h3, h4, h5⟩

/-- Within the range in which the product fits `int64`, `maxSizeBytes` is the
product. -/
theorem maxSizeBytes_of_range (cfg : Config) (hlo : -(2 ^ 43) ≤ cfg.MaxFileSizeMB)
    (hhi : cfg.MaxFileSizeMB < 2 ^ 43) :
    Uploader.maxSizeBytes cfg = cfg.MaxFileSizeMB * 1024 * 1024 := by
  unfold Uploader.maxSizeBytes
  rw [wrapInt64_of_range cfg.MaxFileSizeMB (by omega) (by omega),
    wrapInt64_of_range (cfg.MaxFileSizeMB * 1024) (by omega) (by omega),
    wrapInt64_of_range (cfg.MaxFileSizeMB * 1024 * 1024) (by omega) (by omega)]

theorem admittedByProduct_eq (cfg : Config) (w : World)
    (hlo : -(2 ^ 43) ≤ cfg.MaxFileSizeMB) (hhi : cfg.MaxFileSizeMB < 2 ^ 43) :
    admittedByProduct cfg w = admitted cfg w := by
  funext file
  unfold admittedByProduct admitted
  rw [maxSizeBytes_of_range cfg hlo hhi]

/-- For every configuration, `addToQueue` returns, and appends to the queue
exactly the candidates, in candidate order, on which `os.Stat` succeeds, whose
size is at most `maxSizeBytes`, the `int64` value of
`int64(MaxFileSizeMB) * 1024 * 1024`, and for which `IsUploaded` returns
false; nothing but the queue changes. -/
theorem addToQueue_appends_within_code_limit (cfg : Config) (w : World)
    (files : List String) :
    ∃ w2 : World, Uploader.addToQueue cfg Locks.free w files = Run.returns w2 ∧
      w2.queue = w.queue ++ files.filter (admitted cfg w) ∧
      (∀ file, admitted cfg w file = true ↔
        ∃ size, (w.fs file).stat = StatResult.ok size ∧ size ≤ Uploader.maxSizeBytes cfg ∧
          History.IsUploaded Locks.free w file = Run.returns false) ∧
      (∀ file size, (w.fs file).stat = StatResult.ok size →
        size = Uploader.maxSizeBytes cfg →
        History.IsUploaded Locks.free w file = Run.returns false →
        admitted cfg w file = true) ∧
      (∀ file size, (w.fs file).stat = StatResult.ok size →
        Uploader.maxSizeBytes cfg < size → file ∉ w2.queue.drop w.queue.length) ∧
      w2.records = w.records ∧ w2.fs = w.fs := by
  obtain ⟨h1, h2, h3, h4, h5, h6⟩ := seq_addToQueue_spec cfg w files
  have hiff : ∀ file, History.IsUploaded Locks.free w file = Run.returns false
      ↔ Seq.IsUploaded w file = false := by
    intro file
    rw [IsUploaded_returns Locks.free w file rfl]
    constructor
    · intro h; injection h
    · intro h; rw [h]
  refine ⟨Seq.addToQueue cfg w files, addToQueue_returns cfg Locks.free w files rfl rfl,
    h1, ?_, ?_, h4, h5, h6⟩
  · intro file
    rw [h2 file]
    constructor
    · rintro ⟨size, a, b, c⟩
      exact ⟨size, a, b, (hiff file).mpr c⟩
    · rintro ⟨size, a, b, c⟩
      exact ⟨size, a, b, (hiff file).mp c⟩
  · intro file size hs hsz hu
    exact h3 file size hs hsz ((hiff file).mp hu)

set_option maxRecDepth 8000 in
/-- C3, as stated, fails: with `MaxFileSizeMB = 2 ^ 43` the product
`MaxFileSizeMB * 1024 * 1024` is `2 ^ 63`, the `int64` value the code compares
with is `-(2 ^ 63)`, and `addToQueue` refuses the readable three-byte file
`a.png`, which no record matches. -/
theorem addToQueue_refuses_file_at_huge_limit :
    ¬ (∀ (cfg : Config) (w : World) (files : List String),
        ∃ w2 : World, Uploader.addToQueue cfg Locks.free w files = Run.returns w2 ∧
          w2.queue = w.queue ++ files.filter (admittedByProduct cfg w)) := by
  intro h
  obtain ⟨w2, h1, h2⟩ := h cfgHuge worldTwo ["a.png"]
  rw [addToQueue_returns cfgHuge Locks.free worldTwo ["a.png"] rfl rfl] at h1
  injection h1 with h1
  subst h1
  revert h2
  decide

/-- C3, amended. For every configuration whose `MaxFileSizeMB` is below `2 ^ 43`
(and not below `-(2 ^ 43)`), so that `MaxFileSizeMB * 1024 * 1024` fits
`int64`: `addToQueue` returns, and appends to the queue exactly the candidates,
in candidate order, on which `os.Stat` succeeds, whose size is at most
`MaxFileSizeMB * 1024 * 1024` and for which `IsUploaded` returns false.  A
file of exactly that size is admitted and a larger file is not appended.  The
entries already queued stay in place and nothing but the queue changes. -/
theorem addToQueue_appends_admitted (cfg : Config) (w : World) (files : List String)
    (hlo : -(2 ^ 43) ≤ cfg.MaxFileSizeMB) (hhi : cfg.MaxFileSizeMB < 2 ^ 43) :
    ∃ w2 : World, Uploader.addToQueue cfg Locks.free w files = Run.returns w2 ∧
      w2.queue = w.queue ++ files.filter (admittedByProduct cfg w) ∧
      (∀ file, admittedByProduct cfg w file = true ↔
        ∃ size, (w.fs file).stat = StatResult.ok size ∧
          size ≤ cfg.MaxFileSizeMB * 1024 * 1024 ∧
          History.IsUploaded Locks.free w file = Run.returns false) ∧
      (∀ file size, (w.fs file).stat = StatResult.ok size →
        size = cfg.MaxFileSizeMB * 1024 * 1024 →
        History.IsUploaded Locks.free w file = Run.returns false →
        admittedByProduct cfg w file = true) ∧
      (∀ file size, (w.fs file).stat = StatResult.ok size →
        cfg.MaxFileSizeMB * 1024 * 1024 < size → file ∉ w2.queue.drop w.queue.length) ∧
      w2.records = w.records ∧ w2.fs = w.fs := by
  obtain ⟨w2, h0, h1, h2, h3, h4, h5, h6⟩ := addToQueue_appends_within_code_limit cfg w files
  rw [← admittedByProduct_eq cfg w hlo hhi, maxSizeBytes_of_range cfg hlo hhi] at *
  exact ⟨w2, h0, h1, h2, h3, h4, h5, h6⟩

set_option maxRecDepth 8000 in
/-- Witness for the amended C3: the default maximum of 8 megabytes, the
candidates `a.png`, which is admitted, and `c.png`, which does not exist. -/
theorem addToQueue_appends_admitted_witness :
    -(2 ^ 43) ≤ cfgFive.MaxFileSizeMB ∧ cfgFive.MaxFileSizeMB < 2 ^ 43 ∧
    ∃ w2 : World,
      Uploader.addToQueue cfgFive Locks.free worldTwo ["a.png", "c.png"] = Run.returns w2 ∧
      w2.queue = ["a.png"] := by
  refine ⟨by decide, by decide, ?_⟩
  obtain ⟨w2, h0, h1, _⟩ :=
    addToQueue_appends_admitted cfgFive worldTwo ["a.png", "c.png"] (by decide) (by decide)
  exact ⟨w2, h0, h1.trans (by decide)⟩

/-- C4. `IsUploaded p` returns, and returns true exactly when the file at `p` can
be statted and hashed, the store holds a record under key `p`, and the hash and
size of the record equal the current hash and size of the file.  It returns
false when the stat fails, when the hash computation fails, when there is no
record, and when the hash or the size differs from the record. -/
theorem IsUploaded_true_iff_record_matches (w : World) (p : String) :
    (∃ b, History.IsUploaded Locks.free w p = Run.returns b) ∧
    (History.IsUploaded Locks.free w p = Run.returns true ↔
      ∃ size hash record, (w.fs p).stat = StatResult.ok size ∧
        History.calculateFileHash w p = some hash ∧ mapGet w.records p = some record ∧
        record.FileHash = hash ∧ record.FileSize = size) ∧
    ((∀ size, (w.fs p).stat ≠ StatResult.ok size) →
      History.IsUploaded Locks.free w p = Run.returns false) ∧
    (History.calculateFileHash w p = none →
      History.IsUploaded Locks.free w p = Run.returns false) ∧
    (mapGet w.records p = none → History.IsUploaded Locks.free w p = Run.returns false) ∧
    (∀ size hash record, (w.fs p).stat = StatResult.ok size →
      History.calculateFileHash w p = some hash → mapGet w.records p = some record →
      (record.FileHash ≠ hash ∨ record.FileSize ≠ size) →
      History.IsUploaded Locks.free w p = Run.returns false) := by
  have hret := IsUploaded_returns Locks.free w p rfl
  obtain ⟨h1, h2, h3, h4, h5⟩ := seq_IsUploaded_iff w p
  rw [hret]
  refine ⟨⟨_, rfl⟩, ?_, ?_, ?_, ?_, ?_⟩
  · rw [← h1]
    constructor
    · intro h; injection h
    · intro h; rw [h]
  · intro h; rw [h2 h]
  · intro h; rw [h3 h]
  · intro h; rw [h4 h]
  · intro size hash record a b c d
    rw [h5 size hash record a b c d]

theorem uploadBatch_nilMap (cfg : Config) (deliver : Call → Bool) (w : World) :
    (uploadBatch cfg deliver w).nilMap = w.nilMap := by
  by_cases hq : w.queue = []
  · rw [uploadBatch_empty cfg deliver w hq]
  · obtain ⟨c, _, _, _, h | h⟩ := uploadBatch_cases cfg deliver w hq
    · rw [h.2]
    · rw [h.2, foldl_handle_nilMap]

set_option maxRecDepth 8000 in
/-- C5. With batch size 1 and files kept after upload, two calls of
`addToQueue` with `a.png` and one successful tick, all returning, reach from
the empty queue a state in which `a.png` is queued while `IsUploaded` returns
true for it; the next successful tick hands `a.png` to the delivery
collaborator a second time. -/
theorem queued_path_can_be_uploaded :
    ∃ w : World, runTwiceQueued = Run.returns w ∧ Reachable cfgOne w ∧
      w.queue = ["a.png"] ∧
      History.IsUploaded Locks.free w "a.png" = Run.returns true ∧
      ∃ w2 : World,
        Uploader.uploadBatch cfgOne (fun _ => true) Locks.free w = Run.returns w2 ∧
        Reachable cfgOne w2 ∧
        deliveries w2 = [Call.UploadImage "a.png", Call.UploadImage "a.png"] ∧
        w2.queue = [] := by
  have h1 := addToQueue_returns cfgOne Locks.free worldTwo ["a.png"] rfl rfl
  have h2 := addToQueue_returns cfgOne Locks.free
    (Seq.addToQueue cfgOne worldTwo ["a.png"]) ["a.png"] rfl rfl
  have h3 := uploadBatch_returns cfgOne (fun _ => true) Locks.free
    (Seq.addToQueue cfgOne (Seq.addToQueue cfgOne worldTwo ["a.png"]) ["a.png"]) rfl rfl
    (by decide)
  have h4 := uploadBatch_returns cfgOne (fun _ => true) Locks.free
    (Seq.uploadBatch cfgOne (fun _ => true)
      (Seq.addToQueue cfgOne (Seq.addToQueue cfgOne worldTwo ["a.png"]) ["a.png"])) rfl rfl
    (by decide)
  have hreach : Reachable cfgOne
      (Seq.uploadBatch cfgOne (fun _ => true)
        (Seq.addToQueue cfgOne (Seq.addToQueue cfgOne worldTwo ["a.png"]) ["a.png"])) :=
    Reachable.tick _ _ (fun _ => true)
      (Reachable.add _ _ ["a.png"]
        (Reachable.add worldTwo _ ["a.png"] (Reachable.init worldTwo rfl) h1) h2) h3
  refine ⟨_, ?_, hreach, by decide, ?_, _, h4, Reachable.tick _ _ _ hreach h4,
    by decide, by decide⟩
  · unfold runTwiceQueued
    rw [h1, returns_bind, h2, returns_bind, h3]
  · rw [IsUploaded_returns Locks.free _ "a.png" rfl]
    exact congrArg Run.returns (by decide)

/-- On a store whose map is not nil: when the file at `p` can be statted and
hashed, `MarkUploaded p r` returns and the store then holds exactly one record
under key `p`, carrying the current hash and size of the file and the
reference `r`; the records of the other paths are unchanged; and
`IsUploaded p` returns true in every later state in which the file and that
record are unchanged.  On every store, when the stat or the hash computation
fails, `MarkUploaded` returns an error and changes nothing. -/
theorem MarkUploaded_overwrites_record (w : World) (p r : String) :
    (w.nilMap = false → ∀ size hash, (w.fs p).stat = StatResult.ok size →
      History.calculateFileHash w p = some hash →
      ∃ (w2 : World) (err : Option GoError),
        History.MarkUploaded Locks.free w p r = Run.returns (w2, err) ∧
        mapGet w2.records p = some ⟨p, hash, size, w.now, r⟩ ∧
        w2.records.filter (fun e => decide (e.1 = p)) = [(p, ⟨p, hash, size, w.now, r⟩)] ∧
        w2.records.filter (fun e => decide (e.1 ≠ p))
          = w.records.filter (fun e => decide (e.1 ≠ p)) ∧
        (∀ q, q ≠ p → mapGet w2.records q = mapGet w.records q) ∧
        History.IsUploaded Locks.free w2 p = Run.returns true ∧
        (∀ w3 : World, w3.fs p = w.fs p → mapGet w3.records p = mapGet w2.records p →
          History.IsUploaded Locks.free w3 p = Run.returns true)) ∧
    (((∀ size, (w.fs p).stat ≠ StatResult.ok size) ∨ History.calculateFileHash w p = none) →
      ∃ err : GoError, History.MarkUploaded Locks.free w p r = Run.returns (w, some err)) := by
  obtain ⟨hok, hfail⟩ := seq_MarkUploaded_spec w p r
  constructor
  · intro hn size hash hs hh
    have hret := MarkUploaded_returns Locks.free w p r rfl hn
    obtain ⟨h1, h2, h3, h4, h5, h6⟩ := hok size hash hs hh
    refine ⟨(Seq.MarkUploaded w p r).1, (Seq.MarkUploaded w p r).2, hret, h1, h2, h3, h4,
      ?_, ?_⟩
    · rw [IsUploaded_returns Locks.free _ p rfl, h5]
    · intro w3 hfs hrec
      rw [IsUploaded_returns Locks.free w3 p rfl, h6 w3 hfs hrec]
  · intro h
    have hret : History.MarkUploaded Locks.free w p r
        = Run.returns (Seq.MarkUploaded w p r) := by
      rcases MarkUploaded_outcome Locks.free w p r rfl with ho | ho
      · exact ho
      · exfalso
        unfold History.MarkUploaded at ho
        rcases h with h | h
        · cases hs : (w.fs p).stat with
          | ok size => exact h size hs
          | notExist => rw [hs] at ho; cases ho
          | otherErr => rw [hs] at ho; cases ho
        · cases hs : (w.fs p).stat with
          | ok size =>
            rw [hs] at ho
            simp only [h] at ho
            cases ho
          | notExist => rw [hs] at ho; cases ho
          | otherErr => rw [hs] at ho; cases ho
    obtain ⟨hne, hw⟩ := hfail h
    cases herr : (Seq.MarkUploaded w p r).2 with
    | none => exact absurd herr hne
    | some err =>
      refine ⟨err, ?_⟩
      rw [hret]
      exact congrArg Run.returns (Prod.ext hw herr)

set_option maxRecDepth 8000 in
/-- C6. A history file holding `null` is loaded without an error and leaves the
map of the store nil: `New` returns that store and `GetUploadCount` returns
0.  On it `MarkUploaded` for the readable file `a.png`, whose stat and hash
succeed, panics at the assignment to the map: the call does not return, no
record is written, nothing is saved, and `IsUploaded` still returns false.
On the store `New` makes without a history file the same call returns and
writes the record. -/
theorem MarkUploaded_panics_on_nil_map :
    History.New worldTwo (ReadFileResult.data "null") unmarshalNull = Except.ok worldNull ∧
    worldNull.nilMap = true ∧ worldNull.records = [] ∧
    History.GetUploadCount Locks.free worldNull = Run.returns 0 ∧
    (worldNull.fs "a.png").stat = StatResult.ok 3 ∧
    History.calculateFileHash worldNull "a.png" = some "ha" ∧
    History.MarkUploaded Locks.free worldNull "a.png" "" = Run.panics worldNull ∧
    (History.MarkUploaded Locks.free worldNull "a.png" "").value?.isNone = true ∧
    mapGet worldNull.records "a.png" = none ∧
    worldNull.saves = 0 ∧
    History.IsUploaded Locks.free worldNull "a.png" = Run.returns false ∧
    (History.MarkUploaded Locks.free worldTwo "a.png" "").value?.map
        (fun r => (r.1.records, r.2))
      = some ([("a.png", ⟨"a.png", "ha", 3, worldTwo.now, ""⟩)], none) := by
  have hp := MarkUploaded_panics Locks.free worldNull "a.png" "" 3 "ha" rfl rfl
    (by decide) (by decide)
  refine ⟨rfl, rfl, rfl, ?_, by decide, by decide, hp, ?_, by decide, rfl, ?_,
    by decide⟩
  · rw [GetUploadCount_returns]; rfl
  · rw [hp]; rfl
  · rw [IsUploaded_returns Locks.free _ "a.png" rfl]
    exact congrArg Run.returns (by decide)

/-- On a store whose map is not nil: a queue holding one readable file and an
empty history, when delivery fails on the first tick and succeeds on the
second, both ticks return; after the first the queue still holds exactly that
file (length 1) and no record exists; after the second the queue is empty and
the history holds exactly one record, the one for that file. -/
theorem retry_then_success (cfg : Config) (deliver1 deliver2 : Call → Bool) (w : World)
    (f : String) (size : Int) (hash : String) (hn : w.nilMap = false)
    (hb : 1 ≤ cfg.BatchSize) (hq : w.queue = [f]) (hr : w.records = [])
    (hs : (w.fs f).stat = StatResult.ok size)
    (hh : History.calculateFileHash w f = some hash)
    (h1 : deliver1 (Call.UploadImage f) = false)
    (h2 : deliver2 (Call.UploadImage f) = true) :
    ∃ w1 w2 : World,
      Uploader.uploadBatch cfg deliver1 Locks.free w = Run.returns w1 ∧
      w1.queue = [f] ∧
      Uploader.GetQueueLength Locks.free w1 = Run.returns 1 ∧
      w1.records = [] ∧
      History.GetUploadCount Locks.free w1 = Run.returns 0 ∧
      Uploader.uploadBatch cfg deliver2 Locks.free w1 = Run.returns w2 ∧
      w2.queue = [] ∧
      Uploader.GetQueueLength Locks.free w2 = Run.returns 0 ∧
      w2.records = [(f, ⟨f, hash, size, w.now, ""⟩)] ∧
      History.GetUploadCount Locks.free w2 = Run.returns 1 := by
  obtain ⟨a, b, c, d⟩ := seq_retry_then_success cfg deliver1 deliver2 w f size hash hb hq hr
    hs hh h1 h2
  have hret1 := uploadBatch_returns cfg deliver1 Locks.free w rfl rfl hn
  have hn1 : (Seq.uploadBatch cfg deliver1 w).nilMap = false := by
    rw [uploadBatch_nilMap, hn]
  refine ⟨Seq.uploadBatch cfg deliver1 w,
    Seq.uploadBatch cfg deliver2 (Seq.uploadBatch cfg deliver1 w),
    hret1, a, ?_, b, ?_,
    uploadBatch_returns cfg deliver2 Locks.free _ rfl rfl hn1, c, ?_, d, ?_⟩
  · rw [GetQueueLength_returns, a]; rfl
  · rw [GetUploadCount_returns, b]; rfl
  · rw [GetQueueLength_returns, c]; rfl
  · rw [GetUploadCount_returns, d]; rfl

set_option maxRecDepth 8000 in
/-- C7. The queue holding `a.png` with the empty store `New` returns for a
history file holding `null`: the first tick, whose delivery fails, returns with
`a.png` still queued (length 1) and no record; the second tick, whose delivery
succeeds, takes `a.png` from the queue, makes the delivery call and panics
in `MarkUploaded`: it does not return and no record is created.  On the empty
store of `make` the same two ticks return with the queue empty and one
record. -/
theorem retry_then_success_panics_on_nil_map :
    History.New worldTwo (ReadFileResult.data "null") unmarshalNull = Except.ok worldNull ∧
    worldNullSingle = { worldNull with queue := ["a.png"] } ∧
    worldNullSingle.queue = ["a.png"] ∧ worldNullSingle.records = [] ∧
    History.GetUploadCount Locks.free worldNullSingle = Run.returns 0 ∧
    (Uploader.uploadBatch cfgFive (fun _ => false) Locks.free worldNullSingle).value?.map
        (fun w => (w.queue, w.records, deliveries w))
      = some (["a.png"], [], [Call.UploadImage "a.png"]) ∧
    (Uploader.processQueue cfgFive Locks.free [fun _ => false, fun _ => true]
        worldNullSingle).value?.isNone = true ∧
    (Uploader.processQueue cfgFive Locks.free [fun _ => false, fun _ => true]
        worldNullSingle).panickedAt?.map
        (fun w => (w.queue, w.records, w.saves, w.trace))
      = some ([], [], 0,
          [Event.deliver (Call.UploadImage "a.png"), Event.deliver (Call.UploadImage "a.png"),
            Event.MarkUploaded "a.png" ""]) ∧
    (Uploader.processQueue cfgFive Locks.free [fun _ => false, fun _ => true]
        worldSingle).value?.map (fun w => (w.queue, w.records.length, w.records.map Prod.fst))
      = some ([], 1, ["a.png"]) := by
  refine ⟨rfl, rfl, rfl, rfl, ?_, by decide, by decide, by decide, by decide⟩
  rw [GetUploadCount_returns]; rfl

theorem markAndDelete_nilMap (cfg : Config) (w : World) (f : String) :
    (Seq.markAndDelete cfg w f).nilMap = w.nilMap := by
  unfold Seq.markAndDelete
  rw [DeleteFile_nilMap, MarkUploaded_nilMap]

/-- On a store whose map is not nil, `markAndDeleteAll` returns the state its
steps build. -/
theorem markAndDeleteAll_returns (cfg : Config) (fs : List String) (w : World)
    (hn : w.nilMap = false) :
    markAndDeleteAll cfg fs w = Run.returns (fs.foldl (Seq.markAndDelete cfg) w) := by
  induction fs generalizing w with
  | nil => rfl
  | cons f rest ih =>
    unfold markAndDeleteAll
    rw [MarkUploaded_returns Locks.free w f "" rfl hn, returns_bind]
    exact ih _ (by rw [← hn]; exact markAndDelete_nilMap cfg w f)

/-- One step of success handling changes the file system and the history as
`MarkUploaded` followed by `DeleteFile` does. -/
theorem sameStore_handle (cfg : Config) (a b : World) (f : String) (h : sameStore a b) :
    sameStore (Seq.handleSuccessfulUpload cfg a f) (Seq.markAndDelete cfg b f) := by
  obtain ⟨h1, h2, h3, h4, h5, h6, h7, h8⟩ := h
  cases a
  cases b
  simp only at h1 h2 h3 h4 h5 h6 h7 h8
  subst h1 h2 h3 h4 h5 h6 h7 h8
  rename_i fs now dirOk writable persisted records nilMap queue trace saves queue2 trace2
  cases hs : (fs f).stat <;> cases hh : (fs f).hash <;> cases dirOk <;> cases writable <;>
    cases hd : cfg.DeleteAfterUpload <;> cases hr : (fs f).removable <;>
    simp [sameStore, Seq.handleSuccessfulUpload, Seq.markAndDelete, Seq.MarkUploaded,
      Seq.save, DeleteFile, calculateFileHash, hs, hh, hd, hr]

theorem sameStore_foldl (cfg : Config) (fs : List String) (a b : World)
    (h : sameStore a b) :
    sameStore (fs.foldl (Seq.handleSuccessfulUpload cfg) a)
      (fs.foldl (Seq.markAndDelete cfg) b) := by
  induction fs generalizing a b with
  | nil => exact h
  | cons f rest ih => exact ih _ _ (sameStore_handle cfg a b f h)

/-- After a tick whose delivery succeeds, the file system and the history are
those which `MarkUploaded` and `DeleteFile`, run for every file of the batch in
order, leave. -/
theorem seq_uploadBatch_store (cfg : Config) (deliver : Call → Bool) (w : World)
    (hq : w.queue ≠ [])
    (hok : ∀ c : Call,
      c.paths = w.queue.take (min cfg.BatchSize w.queue.length) → deliver c = true) :
    sameStore (uploadBatch cfg deliver w)
      ((w.queue.take (min cfg.BatchSize w.queue.length)).foldl (Seq.markAndDelete cfg) w) := by
  obtain ⟨c, hc, _, _, h | h⟩ := uploadBatch_cases cfg deliver w hq
  · rw [hok c hc] at h
    exact absurd h.1 (by decide)
  · rw [h.2, hc]
    exact sameStore_foldl cfg _ _ _ ⟨rfl, rfl, rfl, rfl, rfl, rfl, rfl, rfl⟩

/-- On a store whose map is not nil: a queue of `n` files with
`2 ≤ n ≤ BatchSize` and a delivery that succeeds.  One `uploadBatch` returns
after one `UploadImages` call carrying the whole queue in order and no
`UploadImage` call, followed by `MarkUploaded` and `DeleteFile` for every file
in order, whatever `MarkUploaded` returns; the file system and the history are
then those which these calls, run one after the other from the state before
the tick, leave; and the queue is empty.  A batch of exactly one path is
delivered by `UploadImage`. -/
theorem uploadBatch_multi_file_success (cfg : Config) (deliver : Call → Bool) (w : World)
    (hn : w.nilMap = false) :
    (2 ≤ w.queue.length → w.queue.length ≤ cfg.BatchSize →
      deliver (Call.UploadImages w.queue) = true →
      ∃ w2 w3 : World, Uploader.uploadBatch cfg deliver Locks.free w = Run.returns w2 ∧
        w2.trace
          = w.trace ++ Event.deliver (Call.UploadImages w.queue)
              :: w.queue.flatMap (fun f => [Event.MarkUploaded f "", Event.DeleteFile f]) ∧
        deliveries w2 = deliveries w ++ [Call.UploadImages w.queue] ∧
        w2.queue = [] ∧
        markAndDeleteAll cfg w.queue w = Run.returns w3 ∧
        sameStore w2 w3) ∧
    (∀ f, w.queue.take (min cfg.BatchSize w.queue.length) = [f] →
      deliver (Call.UploadImage f) = true →
      ∃ w2 w3 : World, Uploader.uploadBatch cfg deliver Locks.free w = Run.returns w2 ∧
        w2.trace
          = w.trace ++ [Event.deliver (Call.UploadImage f), Event.MarkUploaded f "",
              Event.DeleteFile f] ∧
        deliveries w2 = deliveries w ++ [Call.UploadImage f] ∧
        w2.queue = w.queue.drop 1 ∧
        markAndDeleteAll cfg [f] w = Run.returns w3 ∧
        sameStore w2 w3) := by
  have hret := uploadBatch_returns cfg deliver Locks.free w rfl rfl hn
  obtain ⟨hmulti, hsingle⟩ := seq_uploadBatch_multi cfg deliver w
  constructor
  · intro a b c
    obtain ⟨t1, t2, t3⟩ := hmulti a b c
    have hne : w.queue ≠ [] := by
      intro h; rw [h] at a; simp at a
    have htake : w.queue.take (min cfg.BatchSize w.queue.length) = w.queue := by
      rw [Nat.min_eq_right b, List.take_length]
    obtain ⟨c2, hc, _, hm, hcase⟩ := uploadBatch_cases cfg deliver w hne
    have hc2 : c2 = Call.UploadImages w.queue := by
      rw [← htake]
      apply hm
      intro f hf
      rw [htake] at hf
      rw [hf] at a
      simp at a
    refine ⟨_, _, hret, t1, t2, t3, markAndDeleteAll_returns cfg w.queue w hn, ?_⟩
    rcases hcase with h | h
    · rw [hc2, c] at h
      exact absurd h.1 (by decide)
    · rw [h.2, hc, htake]
      exact sameStore_foldl cfg _ _ _ ⟨rfl, rfl, rfl, rfl, rfl, rfl, rfl, rfl⟩
  · intro f a b
    obtain ⟨t1, t2, t3⟩ := hsingle f a b
    have hne : w.queue ≠ [] := by
      intro h; rw [h] at a; simp at a
    obtain ⟨c2, hc, hone, _, hcase⟩ := uploadBatch_cases cfg deliver w hne
    have hc2 : c2 = Call.UploadImage f := hone f a
    refine ⟨_, _, hret, t1, t2, t3, markAndDeleteAll_returns cfg [f] w hn, ?_⟩
    rcases hcase with h | h
    · rw [hc2, b] at h
      exact absurd h.1 (by decide)
    · rw [h.2, hc, a]
      exact sameStore_foldl cfg _ _ _ ⟨rfl, rfl, rfl, rfl, rfl, rfl, rfl, rfl⟩

set_option maxRecDepth 8000 in
/-- C8. The queue `a.png`, `b.png` with batch size 5, files deleted after upload,
a delivery that succeeds and the store `New` returns for a history file holding
`null`: `uploadBatch` makes the one `UploadImages` call carrying both paths
and then panics in `MarkUploaded` for `a.png`.  It does not return; `DeleteFile`
is not called for `a.png`, which stays on disk; neither call is made for
`b.png`; no record is written.  On the store of `make` the same tick returns
with both files recorded and deleted and the queue empty. -/
theorem uploadBatch_multi_panics_on_nil_map :
    History.New worldTwo (ReadFileResult.data "null") unmarshalNull = Except.ok worldNull ∧
    worldNullQueued = { worldNull with queue := ["a.png", "b.png"] } ∧
    2 ≤ worldNullQueued.queue.length ∧ worldNullQueued.queue.length ≤ cfgFive.BatchSize ∧
    (Uploader.uploadBatch cfgFive (fun _ => true) Locks.free worldNullQueued).value?.isNone
      = true ∧
    (Uploader.uploadBatch cfgFive (fun _ => true) Locks.free worldNullQueued).panickedAt?.map
        (fun w => (w.trace, w.queue, w.records, w.saves))
      = some ([Event.deliver (Call.UploadImages ["a.png", "b.png"]),
          Event.MarkUploaded "a.png" ""], [], [], 0) ∧
    (Uploader.uploadBatch cfgFive (fun _ => true) Locks.free worldNullQueued).panickedAt?.map
        (fun w => ((w.fs "a.png").stat, (w.fs "b.png").stat))
      = some (StatResult.ok 3, StatResult.ok 3) ∧
    (Uploader.uploadBatch cfgFive (fun _ => true) Locks.free worldQueued).value?.map
        (fun w => (w.trace, w.queue, w.records.map Prod.fst, w.saves))
      = some ([Event.deliver (Call.UploadImages ["a.png", "b.png"]),
          Event.MarkUploaded "a.png" "", Event.DeleteFile "a.png",
          Event.MarkUploaded "b.png" "", Event.DeleteFile "b.png"],
          [], ["a.png", "b.png"], 2) ∧
    (Uploader.uploadBatch cfgFive (fun _ => true) Locks.free worldQueued).value?.map
        (fun w => ((w.fs "a.png").stat, (w.fs "b.png").stat))
      = some (StatResult.notExist, StatResult.notExist) := by
  refine ⟨rfl, rfl, by decide, by decide, by decide, by decide, by decide, by decide,
    by decide⟩

/-- With every delivery succeeding, on a store whose map is not nil, `Stop` returns with one batch removed from
the queue and no more. -/
theorem Stop_flushes_one_batch (cfg : Config) (deliver : Call → Bool) (w : World)
    (hn : w.nilMap = false) (hok : ∀ c, deliver c = true) :
    ∃ w2 : World, Uploader.Stop cfg deliver Locks.free w = Run.returns w2 ∧
      w2.queue = w.queue.drop (min cfg.BatchSize w.queue.length) :=
  ⟨_, Stop_returns cfg deliver w hn, seq_flush_queue cfg deliver w hok⟩

set_option maxRecDepth 8000 in
/-- C9. `Stop` on the queue `a.png`, `b.png` with batch size 1 and a delivery
that succeeds: `Stop` returns, only `a.png` has been handed to the delivery
collaborator, and `b.png` is still queued. -/
theorem Stop_leaves_second_batch :
    (Uploader.Stop cfgOne (fun _ => true) Locks.free worldQueued).value?.map World.queue
      = some ["b.png"] ∧
    (Uploader.Stop cfgOne (fun _ => true) Locks.free worldQueued).value?.map deliveries
      = some [Call.UploadImage "a.png"] := by
  decide

set_option maxRecDepth 8000 in
/-- C10. `CleanupMissingFiles` on a history that records `a.png`, which exists,
and `old.png`, which does not: the call does not return.  It hangs in `save`,
on the `RLock` of the mutex it holds, with the record of `old.png` removed from
the map in memory and the history file still holding both records. -/
theorem CleanupMissingFiles_blocks_in_save :
    (History.CleanupMissingFiles Locks.free worldStale).value?.isNone = true ∧
    (History.CleanupMissingFiles Locks.free worldStale).blockedAt?.map World.records
      = some [("a.png", ⟨"a.png", "ha", 3, 0, ""⟩)] ∧
    (History.CleanupMissingFiles Locks.free worldStale).blockedAt?.map World.persisted
      = some worldStale.persisted ∧
    (History.CleanupMissingFiles Locks.free worldStale).blockedAt?.map World.saves
      = some 1 := by
  decide

/-! ## The watcher filter -/

theorem isImageFile_iff_mem (lower : Char → Char) (supportedFormats : List String)
    (filename : String) :
    Watcher.isImageFile lower supportedFormats filename = true
      ↔ strings.ToLower lower (filepath.Ext filename) ∈ supportedFormats := by
  unfold Watcher.isImageFile
  simp only [List.any_eq_true, decide_eq_true_eq]
  constructor
  · rintro ⟨s, hs, heq⟩
    rw [heq]; exact hs
  · intro h
    exact ⟨_, h, rfl⟩

/-- When every configured extension is in lower case, `isImageFile` is the
case-insensitive membership test. -/
theorem isImageFile_of_lowercase_formats (lower : Char → Char)
    (supportedFormats : List String) (filename : String)
    (hlow : ∀ s ∈ supportedFormats, strings.ToLower lower s = s) :
    Watcher.isImageFile lower supportedFormats filename = true
      ↔ ∃ s ∈ supportedFormats, equalIgnoringCase lower (filepath.Ext filename) s := by
  rw [isImageFile_iff_mem]
  unfold equalIgnoringCase
  constructor
  · intro h
    exact ⟨_, h, (hlow _ h).symm⟩
  · rintro ⟨s, hs, heq⟩
    rw [heq, hlow s hs]
    exact hs

theorem scanLoop_no_error (lower : Char → Char) (supportedFormats : List String)
    (walk : List WalkEntry) (files : List String) (hok : ∀ e ∈ walk, e.err = false) :
    Watcher.scanLoop lower supportedFormats walk files
      = some (files ++ (walk.filter (fun e =>
          !e.isDir && Watcher.isImageFile lower supportedFormats e.path)).map WalkEntry.path) := by
  induction walk generalizing files with
  | nil => simp [Watcher.scanLoop]
  | cons e rest ih =>
    have he : e.err = false := hok e (List.mem_cons_self e rest)
    have hrest : ∀ x ∈ rest, x.err = false := fun x hx => hok x (List.mem_cons_of_mem e hx)
    unfold Watcher.scanLoop
    simp only [he, Bool.false_eq_true, if_false]
    by_cases hc : (!e.isDir && Watcher.isImageFile lower supportedFormats e.path) = true
    · rw [if_pos hc, ih _ hrest]
      simp [List.filter_cons, hc]
    · rw [if_neg hc, ih _ hrest]
      simp [List.filter_cons, hc]

theorem scanLoop_error (lower : Char → Char) (supportedFormats : List String)
    (walk : List WalkEntry) (files : List String) (herr : ∃ e ∈ walk, e.err = true) :
    Watcher.scanLoop lower supportedFormats walk files = none := by
  induction walk generalizing files with
  | nil => obtain ⟨e, he, _⟩ := herr; cases he
  | cons e rest ih =>
    unfold Watcher.scanLoop
    by_cases he : e.err = true
    · rw [if_pos he]
    · rw [if_neg he]
      have hrest : ∃ x ∈ rest, x.err = true := by
        obtain ⟨x, hx, hxe⟩ := herr
        rcases List.mem_cons.mp hx with rfl | hx
        · exact absurd hxe he
        · exact ⟨x, hx, hxe⟩
      split
      · exact ih _ hrest
      · exact ih _ hrest

/-- A walk without errors: `ScanExistingFiles` returns exactly the paths of the
entries that are not directories and pass `isImageFile`, in walk order; a walk
with an error makes it fail. -/
theorem ScanExistingFiles_result (lower : Char → Char) (supportedFormats : List String)
    (walk : List WalkEntry) :
    ((∀ e ∈ walk, e.err = false) →
      Watcher.ScanExistingFiles lower supportedFormats walk
        = some ((walk.filter (fun e =>
            !e.isDir && Watcher.isImageFile lower supportedFormats e.path)).map
              WalkEntry.path)) ∧
    ((∃ e ∈ walk, e.err = true) →
      Watcher.ScanExistingFiles lower supportedFormats walk = none) := by
  unfold Watcher.ScanExistingFiles
  constructor
  · intro hok
    rw [scanLoop_no_error lower supportedFormats walk [] hok]
    simp
  · exact scanLoop_error lower supportedFormats walk []

set_option maxRecDepth 8000 in
/-- C11. With the configured list `.PNG` the file `a.PNG` is not an image file for
`isImageFile`, although its extension is `.PNG`, equal to the configured one as
written and so also when compared case-insensitively: the extension of the file
name is lower-cased, the configured extension is compared as written.  The same
holds for `a.png`, and a scan that finds `watch/a.PNG` with the configured list
`.png` finds nothing with the list `.PNG`. -/
theorem isImageFile_misses_uppercase_format :
    filepath.Ext "a.PNG" = ".PNG" ∧
    equalIgnoringCase Char.toLower (filepath.Ext "a.PNG") ".PNG" ∧
    Watcher.isImageFile Char.toLower [".PNG"] "a.PNG" = false ∧
    equalIgnoringCase Char.toLower (filepath.Ext "a.png") ".PNG" ∧
    Watcher.isImageFile Char.toLower [".PNG"] "a.png" = false ∧
    Watcher.ScanExistingFiles Char.toLower [".png"] walkExample = some ["watch/a.PNG"] ∧
    Watcher.ScanExistingFiles Char.toLower [".PNG"] walkExample = some [] := by
  refine ⟨by decide, ?_, by decide, ?_, by decide, by decide, by decide⟩
  · unfold equalIgnoringCase; decide
  · unfold equalIgnoringCase; decide

/-! ## Loading the history -/

/-- C12. When the history file does not exist, `New` succeeds and returns a store
with no record, whose `GetUploadCount` is 0.  `New` fails exactly when
`os.ReadFile` fails with an error other than not-exist or `json.Unmarshal`
fails, and the error it fails with is then the error of `load`, for which
`os.IsNotExist` is false. -/
theorem New_without_history_file (env : World) (readFile : ReadFileResult)
    (unmarshal : String → Records → Option Records × Bool) :
    (readFile = ReadFileResult.notExist →
      ∃ w2 : World, History.New env readFile unmarshal = Except.ok w2 ∧
        w2.records = [] ∧ w2.nilMap = false ∧
        History.GetUploadCount Locks.free w2 = Run.returns 0) ∧
    (∀ err, History.New env readFile unmarshal = Except.error err ↔
      ((readFile = ReadFileResult.otherErr ∧ err = LoadError.readFailed) ∨
       (∃ bytes, readFile = ReadFileResult.data bytes ∧ (unmarshal bytes []).2 = false ∧
          err = LoadError.unmarshalFailed))) ∧
    (∀ err, History.New env readFile unmarshal = Except.error err →
      err.IsNotExist = false ∧
      (History.load readFile unmarshal { env with records := [], nilMap := false }).2
        = some err) ∧
    ((∃ w2, History.New env readFile unmarshal = Except.ok w2) ↔
      (readFile = ReadFileResult.notExist ∨
        ∃ bytes, readFile = ReadFileResult.data bytes ∧ (unmarshal bytes []).2 = true)) := by
  cases readFile with
  | notExist =>
    refine ⟨fun _ => ⟨{ env with records := [], nilMap := false }, rfl, rfl, rfl, rfl⟩,
      ?_, ?_, ?_⟩
    · intro err
      simp [History.New, History.load, LoadError.IsNotExist]
    · intro err h
      simp [History.New, History.load, LoadError.IsNotExist] at h
    · simp [History.New, History.load, LoadError.IsNotExist]
  | otherErr =>
    refine ⟨fun h => (by cases h), ?_, ?_, ?_⟩
    · intro err
      simp [History.New, History.load, LoadError.IsNotExist]
      exact eq_comm
    · intro err h
      simp [History.New, History.load, LoadError.IsNotExist] at h
      subst h
      exact ⟨rfl, rfl⟩
    · simp [History.New, History.load, LoadError.IsNotExist]
  | data bytes =>
    refine ⟨fun h => (by cases h), ?_, ?_, ?_⟩
    · intro err
      cases hu : (unmarshal bytes []).2
      · simp [History.New, History.load, LoadError.IsNotExist, hu]
        exact eq_comm
      · simp [History.New, History.load, LoadError.IsNotExist, hu]
    · intro err h
      cases hu : (unmarshal bytes []).2
      · simp [History.New, History.load, LoadError.IsNotExist, hu] at h
        subst h
        simp [History.load, LoadError.IsNotExist, hu]
      · simp [History.New, History.load, LoadError.IsNotExist, hu] at h
    · cases hu : (unmarshal bytes []).2
      · simp [History.New, History.load, LoadError.IsNotExist, hu]
      · simp [History.New, History.load, LoadError.IsNotExist, hu]

set_option maxRecDepth 8000 in
/-- Witness for C12: no history file, and a history file whose content does not
parse. -/
theorem New_without_history_file_witness :
    (∃ w2 : World,
      History.New worldTwo ReadFileResult.notExist (fun _ m => (some m, false)) = Except.ok w2 ∧
      w2.records = [] ∧ w2.nilMap = false ∧
      History.GetUploadCount Locks.free w2 = Run.returns 0) ∧
    History.New worldTwo (ReadFileResult.data "not json") (fun _ m => (some m, false))
      = Except.error LoadError.unmarshalFailed :=
  ⟨(New_without_history_file worldTwo ReadFileResult.notExist (fun _ m => (some m, false))).1 rfl,
    ((New_without_history_file worldTwo (ReadFileResult.data "not json")
      (fun _ m => (some m, false))).2.1 LoadError.unmarshalFailed).mpr
        (Or.inr ⟨"not json", rfl, rfl, rfl⟩)⟩

/-! ## The drain loop -/

theorem Call_ofBatch_paths (batch : List String) : (Call.ofBatch batch).paths = batch := by
  unfold Call.ofBatch
  split <;> rfl

theorem seq_tick_failing (cfg : Config) (deliver : Call → Bool) (w : World)
    (hq : w.queue ≠ [])
    (hfail : deliver (Call.ofBatch (w.queue.take (min cfg.BatchSize w.queue.length))) = false) :
    Seq.uploadBatch cfg deliver w
      = afterRetries w (Call.ofBatch (w.queue.take (min cfg.BatchSize w.queue.length))) 1 := by
  obtain ⟨c, _, h1, h2, h | h⟩ := uploadBatch_cases cfg deliver w hq
  all_goals
    have hc : c = Call.ofBatch (w.queue.take (min cfg.BatchSize w.queue.length)) := by
      by_cases hex : ∃ f, w.queue.take (min cfg.BatchSize w.queue.length) = [f]
      · obtain ⟨f, hf⟩ := hex
        rw [h1 f hf, hf]
        rfl
      · have hne : ∀ f, w.queue.take (min cfg.BatchSize w.queue.length) ≠ [f] :=
          fun f hf => hex ⟨f, hf⟩
        rw [h2 hne]
        unfold Call.ofBatch
        split
        · rename_i f hf
          exact absurd hf (hne f)
        · rfl
  · rw [h.2, hc]
    rfl
  · rw [hc, hfail] at h
    exact absurd h.1 (by decide)

theorem seq_processQueue_failing (cfg : Config) (ticks : List (Call → Bool)) (w : World)
    (hq : w.queue ≠ [])
    (hfail : ∀ d ∈ ticks,
      d (Call.ofBatch (w.queue.take (min cfg.BatchSize w.queue.length))) = false) :
    Seq.processQueue cfg ticks w
      = afterRetries w (Call.ofBatch (w.queue.take (min cfg.BatchSize w.queue.length)))
          ticks.length := by
  induction ticks generalizing w with
  | nil => simp [Seq.processQueue, afterRetries]
  | cons d rest ih =>
    have hd := hfail d (List.mem_cons_self d rest)
    have hrest : ∀ x ∈ rest,
        x (Call.ofBatch (w.queue.take (min cfg.BatchSize w.queue.length))) = false :=
      fun x hx => hfail x (List.mem_cons_of_mem d hx)
    have hstep := ih
      (afterRetries w (Call.ofBatch (w.queue.take (min cfg.BatchSize w.queue.length))) 1)
      hq hrest
    rw [Seq.processQueue, seq_tick_failing cfg d w hq hd, hstep]
    simp [afterRetries, List.replicate_succ]

/-- Ticks whose delivery of the front batch fails return, on every store: they
do not reach `MarkUploaded`. -/
theorem processQueue_returns_of_failure (cfg : Config) (ticks : List (Call → Bool))
    (w : World) (hq : w.queue ≠ [])
    (hfail : ∀ d ∈ ticks, ∀ c : Call,
      c.paths = w.queue.take (min cfg.BatchSize w.queue.length) → d c = false) :
    Uploader.processQueue cfg Locks.free ticks w
      = Run.returns (Seq.processQueue cfg ticks w) := by
  induction ticks generalizing w with
  | nil => rfl
  | cons d rest ih =>
    have hd := hfail d (List.mem_cons_self d rest)
    have hstep := seq_tick_failing cfg d w hq (hd _ (Call_ofBatch_paths _))
    have hq1 : (Seq.uploadBatch cfg d w).queue = w.queue := by rw [hstep]; rfl
    rw [Uploader.processQueue, uploadBatch_returns_of_failure cfg d Locks.free w rfl hd,
      returns_bind, Seq.processQueue]
    apply ih
    · rw [hq1]; exact hq
    · intro x hx c hc
      rw [hq1] at hc
      exact hfail x (List.mem_cons_of_mem d hx) c hc

theorem deliveries_afterRetries (w : World) (c : Call) (n : Nat) :
    deliveries (afterRetries w c n) = deliveries w ++ List.replicate n c := by
  unfold deliveries afterRetries
  simp only [List.filterMap_append]
  congr 1
  induction n with
  | zero => rfl
  | succ k ih => simp [List.replicate_succ, ih]

/-- While every delivery of the front batch fails, the drain loop returns with the
queue as it was and one retry of the same call per tick. -/
theorem processQueue_failing_front (cfg : Config) (ticks : List (Call → Bool)) (w : World)
    (f : String) (hlen : cfg.BatchSize < w.queue.length)
    (hf : f ∈ w.queue.take cfg.BatchSize)
    (hfail : ∀ d ∈ ticks, ∀ c : Call, f ∈ c.paths → d c = false) :
    Uploader.processQueue cfg Locks.free ticks w
      = Run.returns
          (afterRetries w (Call.ofBatch (w.queue.take cfg.BatchSize)) ticks.length) := by
  have hmin : min cfg.BatchSize w.queue.length = cfg.BatchSize := by omega
  have hq : w.queue ≠ [] := by
    intro h; rw [h] at hlen; simp at hlen
  have hfail2 : ∀ d ∈ ticks,
      d (Call.ofBatch (w.queue.take (min cfg.BatchSize w.queue.length))) = false := by
    intro d hd
    apply hfail d hd
    rw [Call_ofBatch_paths, hmin]
    exact hf
  have hfail3 : ∀ d ∈ ticks, ∀ c : Call,
      c.paths = w.queue.take (min cfg.BatchSize w.queue.length) → d c = false := by
    intro d hd c hc
    apply hfail d hd
    rw [hc, hmin]
    exact hf
  rw [processQueue_returns_of_failure cfg ticks w hq hfail3,
    seq_processQueue_failing cfg ticks w hq hfail2, hmin]

theorem attempted_of_afterRetries (w : World) (c : Call) (n : Nat) (p : String)
    (h : attemptedSince w (afterRetries w c n) p) : p ∈ c.paths := by
  unfold attemptedSince at h
  rw [deliveries_afterRetries, List.drop_left] at h
  obtain ⟨d, hd, hp⟩ := h
  rw [List.eq_of_mem_replicate hd] at hp
  exact hp

set_option maxRecDepth 8000 in
/-- C13, as stated, fails: with batch size 1, the queue `a.png`, `b.png` and every
delivery of `a.png` failing, `b.png` is in no delivery attempt after any number
of ticks. -/
theorem failing_file_blocks_files_behind :
    ¬ (∀ (cfg : Config) (w : World) (f : String) (deliver : Call → Bool),
        cfg.BatchSize < w.queue.length → f ∈ w.queue.take cfg.BatchSize →
        (∀ c : Call, f ∈ c.paths → deliver c = false) →
        ∀ p ∈ w.queue.drop cfg.BatchSize,
          ∃ (n : Nat) (w2 : World),
            Uploader.processQueue cfg Locks.free (List.replicate n deliver) w = Run.returns w2 ∧
            attemptedSince w w2 p) := by
  intro h
  have hfailA : ∀ c : Call, "a.png" ∈ c.paths → deliverFailingA c = false := by
    intro c hc
    simp [deliverFailingA, hc]
  obtain ⟨n, w2, hrun, hatt⟩ := h cfgOne worldQueued "a.png" deliverFailingA
    (by decide) (by decide) hfailA "b.png" (by decide)
  rw [processQueue_failing_front cfgOne (List.replicate n deliverFailingA) worldQueued "a.png"
    (by decide) (by decide)
    (fun d hd c hc => by rw [List.eq_of_mem_replicate hd]; exact hfailA c hc)] at hrun
  injection hrun with hrun
  subst hrun
  have hmem := attempted_of_afterRetries worldQueued _ _ "b.png" hatt
  revert hmem
  decide

/-- C13, amended. For a queue longer than the batch size whose front batch
contains a file that fails delivery on every attempt, the drain loop returns
after any number of ticks with the queue and the history unchanged; every tick
makes the same delivery call, which carries the front batch; and no path outside
the front batch is included in a delivery attempt.  A persistently failing file
blocks its own batch and the files queued behind it. -/
theorem failing_front_batch_is_retried (cfg : Config) (ticks : List (Call → Bool))
    (w : World) (f : String) (hlen : cfg.BatchSize < w.queue.length)
    (hf : f ∈ w.queue.take cfg.BatchSize)
    (hfail : ∀ d ∈ ticks, ∀ c : Call, f ∈ c.paths → d c = false) :
    ∃ w2 : World, Uploader.processQueue cfg Locks.free ticks w = Run.returns w2 ∧
      w2.queue = w.queue ∧ w2.records = w.records ∧
      deliveries w2 = deliveries w
        ++ List.replicate ticks.length (Call.ofBatch (w.queue.take cfg.BatchSize)) ∧
      (Call.ofBatch (w.queue.take cfg.BatchSize)).paths = w.queue.take cfg.BatchSize ∧
      (∀ p, attemptedSince w w2 p → p ∈ w.queue.take cfg.BatchSize) ∧
      (∀ p, p ∉ w.queue.take cfg.BatchSize → ¬ attemptedSince w w2 p) := by
  have hpaths := Call_ofBatch_paths (w.queue.take cfg.BatchSize)
  have hatt : ∀ p, attemptedSince w
      (afterRetries w (Call.ofBatch (w.queue.take cfg.BatchSize)) ticks.length) p →
      p ∈ w.queue.take cfg.BatchSize := by
    intro p hp
    have := attempted_of_afterRetries w _ _ p hp
    rw [hpaths] at this
    exact this
  exact ⟨_, processQueue_failing_front cfg ticks w f hlen hf hfail, rfl, rfl,
    deliveries_afterRetries w _ _, hpaths, hatt, fun p hp h => hp (hatt p h)⟩

set_option maxRecDepth 8000 in
/-- Witness for the amended C13: three ticks with batch size 1 on the queue
`a.png`, `b.png`, every delivery of `a.png` failing. -/
theorem failing_front_batch_is_retried_witness :
    cfgOne.BatchSize < worldQueued.queue.length ∧
    "a.png" ∈ worldQueued.queue.take cfgOne.BatchSize ∧
    ∃ w2 : World,
      Uploader.processQueue cfgOne Locks.free
        [deliverFailingA, deliverFailingA, deliverFailingA] worldQueued = Run.returns w2 ∧
      w2.queue = worldQueued.queue ∧
      ¬ attemptedSince worldQueued w2 "b.png" := by
  refine ⟨by decide, by decide, ?_⟩
  obtain ⟨w2, h1, h2, _, _, _, _, h7⟩ :=
    failing_front_batch_is_retried cfgOne [deliverFailingA, deliverFailingA, deliverFailingA]
      worldQueued "a.png" (by decide) (by decide)
      (fun d hd c hc => by
        have hd2 : d = deliverFailingA := by
          simp at hd
          exact hd
        rw [hd2]
        simp [deliverFailingA, hc])
  exact ⟨w2, h1, h2, h7 "b.png" (by decide)⟩

end ImageUploader
